import Mathlib

/-!
HTMLTokenizer: a shallow embedding of the scanner of `src/HTMLTokenizer/HTMLTokenizer.cc`.

* `_source` is a `std::string`; it is modelled as the list of its `char`s.  The string is
  built by `std::string(const char*)`, so it holds no NUL character, and on such strings the
  `c_str()` round trip of a token value is the identity.
* `_currentIndex` is an `int` that only ever grows from `0` by the amounts the scan functions
  add and stays within the length of the source, which V8 keeps below `2^31` bytes; it is
  modelled as a natural number.
* `_currentState` is an `int` that only ever holds one of the six values of `enum STATES`; it
  is modelled as that enumeration.
* `std::string::operator[]` at `pos == size()` yields the NUL character; `charAt` does the same.
-/

namespace HTMLTokenizer

/-- The `enum STATES` of the tokenizer. -/
inductive STATES where
  | ILLEGAL
  | INITIAL
  | CONTENT
  | COMPONENT
  | COMMENT
  | END
  deriving DecidableEq, Repr

open STATES

/-- The integer value of each enumerator (`ILLEGAL = -1`, the rest count up from `0`). -/
def STATES.toInt : STATES → Int
  | ILLEGAL => -1
  | INITIAL => 0
  | CONTENT => 1
  | COMPONENT => 2
  | COMMENT => 3
  | END => 4

/-- The macro `COMPONENT_NAME_MIN_LENGTH` of `HTMLTokenizer.h`. -/
def COMPONENT_NAME_MIN_LENGTH : Nat := 10

/-- The three data members of `class HTMLTokenizer`. -/
structure Scanner where
  _source : List Char
  _currentIndex : Nat
  _currentState : STATES
  deriving DecidableEq, Repr

/-- The object returned by `_next`: the fields `state` and `value` (`none` is JavaScript `null`). -/
structure Token where
  state : STATES
  value : Option (List Char)
  deriving DecidableEq, Repr

/-- The read `s[i]` of a `std::string`: the character at `i`, and NUL at `i == s.size()`. -/
def charAt (s : List Char) (i : Nat) : Char :=
  s.getD i (Char.ofNat 0)

/-- The call `s.substr(pos, n)`: at most `n` characters from `pos` on.  The C++ call throws for
`pos > s.size()`, where this function yields the empty string; no session gets there, as the
index stays within the source. -/
def substr (s : List Char) (pos n : Nat) : List Char :=
  (s.drop pos).take n

/-- The method `setHTMLString`; `text` is the string `v8_to_std_string` hands over. -/
def setHTMLString (text : List Char) : Scanner :=
  { _source := [] ++ text, _currentIndex := 0, _currentState := INITIAL }

/-- The function `is_space_or_end`. -/
def is_space_or_end (c : Char) : Bool :=
  c == ' ' ||
  c == '\x0c' ||
  c == '\n' ||
  c == '\r' ||
  c == '\t' ||
  c == '\x0b' ||
  c == '/' ||
  c == '>'

/-- The function `is_cat`. -/
def is_cat (s : List Char) : Bool :=
  charAt s 0 == '<' &&
  (charAt s 1 == 'c' || charAt s 1 == 'C') &&
  (charAt s 2 == 'a' || charAt s 2 == 'A') &&
  (charAt s 3 == 't' || charAt s 3 == 'T') &&
  charAt s 4 == '-'

/-- The function `is_document`. -/
def is_document (s : List Char) : Bool :=
  charAt s 0 == '<' &&
  (charAt s 1 == 'd' || charAt s 1 == 'D') &&
  (charAt s 2 == 'o' || charAt s 2 == 'O') &&
  (charAt s 3 == 'c' || charAt s 3 == 'C') &&
  (charAt s 4 == 'u' || charAt s 4 == 'U') &&
  (charAt s 5 == 'm' || charAt s 5 == 'M') &&
  (charAt s 6 == 'e' || charAt s 6 == 'E') &&
  (charAt s 7 == 'n' || charAt s 7 == 'N') &&
  (charAt s 8 == 't' || charAt s 8 == 'T') &&
  is_space_or_end (charAt s 9)

/-- The function `is_head`. -/
def is_head (s : List Char) : Bool :=
  charAt s 0 == '<' &&
  (charAt s 1 == 'h' || charAt s 1 == 'H') &&
  (charAt s 2 == 'e' || charAt s 2 == 'E') &&
  (charAt s 3 == 'a' || charAt s 3 == 'A') &&
  (charAt s 4 == 'd' || charAt s 4 == 'D') &&
  is_space_or_end (charAt s 5)

/-- The function `is_body`. -/
def is_body (s : List Char) : Bool :=
  charAt s 0 == '<' &&
  (charAt s 1 == 'b' || charAt s 1 == 'B') &&
  (charAt s 2 == 'o' || charAt s 2 == 'O') &&
  (charAt s 3 == 'd' || charAt s 3 == 'D') &&
  (charAt s 4 == 'y' || charAt s 4 == 'Y') &&
  is_space_or_end (charAt s 5)

/-- The method `checkIfComponent`. -/
def checkIfComponent (self : Scanner) : Bool :=
  let s := substr self._source self._currentIndex COMPONENT_NAME_MIN_LENGTH
  is_cat s ||
  is_document s ||
  is_head s ||
  is_body s

/-- The method `initial`. -/
def initial (self : Scanner) : Scanner :=
  if self._currentIndex ≥ self._source.length then
    { self with _currentState := END }
  else if charAt self._source self._currentIndex == '<' then
    if charAt self._source (self._currentIndex + 1) == '!' then
      if charAt self._source (self._currentIndex + 2) == '-' &&
         charAt self._source (self._currentIndex + 3) == '-' then
        { self with _currentState := COMMENT }
      else
        { self with _currentState := CONTENT }
    else if checkIfComponent self then
      { self with _currentState := COMPONENT }
    else
      { self with _currentState := CONTENT }
  else
    { self with _currentState := CONTENT }

/-- The `while` loop of `component`. -/
def componentLoop (self : Scanner) : Scanner :=
  if self._currentIndex < self._source.length then
    if charAt self._source self._currentIndex == '>' then
      { self with _currentIndex := self._currentIndex + 1, _currentState := INITIAL }
    else
      componentLoop { self with _currentIndex := self._currentIndex + 1 }
  else
    { self with _currentState := ILLEGAL }
termination_by self._source.length - self._currentIndex
decreasing_by simp_wf; omega

/-- The method `component`. -/
def component (self : Scanner) : Scanner :=
  componentLoop { self with _currentIndex := self._currentIndex + 5 }

/-- The `while` loop of `content`. -/
def contentLoop (self : Scanner) : Scanner :=
  if self._currentIndex < self._source.length then
    if charAt self._source self._currentIndex == '<' then
      { self with _currentState := INITIAL }
    else
      contentLoop { self with _currentIndex := self._currentIndex + 1 }
  else
    { self with _currentState := END }
termination_by self._source.length - self._currentIndex
decreasing_by simp_wf; omega

/-- The method `content`. -/
def content (self : Scanner) : Scanner :=
  contentLoop { self with _currentIndex := self._currentIndex + 1 }

/-- The `while` loop of `comment`. -/
def commentLoop (self : Scanner) : Scanner :=
  if self._currentIndex < self._source.length then
    if charAt self._source self._currentIndex == '-' then
      if self._currentIndex + 2 ≥ self._source.length then
        { self with _currentState := ILLEGAL }
      else if charAt self._source (self._currentIndex + 1) == '-' &&
              charAt self._source (self._currentIndex + 2) == '>' then
        { self with _currentIndex := self._currentIndex + 3, _currentState := INITIAL }
      else
        commentLoop { self with _currentIndex := self._currentIndex + 1 }
    else
      commentLoop { self with _currentIndex := self._currentIndex + 1 }
  else
    { self with _currentState := ILLEGAL }
termination_by self._source.length - self._currentIndex
decreasing_by all_goals (simp_wf; omega)

/-- The method `comment`. -/
def comment (self : Scanner) : Scanner :=
  commentLoop { self with _currentIndex := self._currentIndex + 4 }

/-- The tail of `_next` after a scan: the token holds the state the call started in and the
text between the index the call started at and the current index. -/
def emit (start : Nat) (state : STATES) (self : Scanner) : Token × Scanner :=
  ({ state := state,
     value := some (substr self._source start (self._currentIndex - start)) }, self)

/-- The method `_next`, returning the token together with the scanner it leaves behind. -/
def _next (self : Scanner) : Token × Scanner :=
  let start := self._currentIndex
  let state := self._currentState
  match h : self._currentState with
  | CONTENT => emit start state (content self)
  | COMPONENT => emit start state (component self)
  | COMMENT => emit start state (comment self)
  | END => ({ state := state, value := none }, self)
  | ILLEGAL => ({ state := state, value := none }, self)
  | INITIAL => _next (initial self)
termination_by (if self._currentState = INITIAL then 1 else 0)
decreasing_by
  have hne : (initial self)._currentState ≠ INITIAL := by
    unfold initial
    split_ifs <;> simp
  simp_wf
  simp [h, hne]

/-- The method `next`: it returns what `_next` returns. -/
def next (self : Scanner) : Token × Scanner :=
  _next self

/-- The scanner left behind by `k` calls of `next`. -/
def scannerAfter : Nat → Scanner → Scanner
  | 0, s => s
  | k + 1, s => scannerAfter k (next s).2

/-- The token returned by call number `k` of `next` (the first call is number `0`). -/
def tokenAt (k : Nat) (s : Scanner) : Token :=
  (next (scannerAfter k s)).1

/-- The tokens returned by the first `k` calls of `next`, in call order. -/
def tokens : Nat → Scanner → List Token
  | 0, _ => []
  | k + 1, s => (next s).1 :: tokens k (next s).2

/-- The text `source[a..b)`: the characters at the indices `a`, ..., `b - 1`. -/
def slice (source : List Char) (a b : Nat) : List Char :=
  (source.take b).drop a

/-- The values of the tokens, the null ones left out, joined in order. -/
def concatValues : List Token → List Char
  | [] => []
  | t :: ts =>
    match t.value with
    | none => concatValues ts
    | some v => v ++ concatValues ts

/-- The terminal states: `END` and `ILLEGAL`. -/
def isTerminal (st : STATES) : Bool :=
  st == END || st == ILLEGAL

/-- The terminator of a comment stands at index `i`: the three characters from `i` on are
`-`, `-`, `>`. -/
def terminatorAt (source : List Char) (i : Nat) : Prop :=
  slice source i (i + 3) = ['-', '-', '>']

instance (source : List Char) (i : Nat) : Decidable (terminatorAt source i) := by
  unfold terminatorAt
  infer_instance

/-- Two characters are equal up to the case of a letter. -/
def eqIgnoreCase (a b : Char) : Bool :=
  a.toLower == b.toLower

/-- The text `l` starts with `name`, up to the case of the letters. -/
def startsWithIgnoreCase : List Char → List Char → Bool
  | [], _ => true
  | _ :: _, [] => false
  | p :: ps, c :: cs => eqIgnoreCase p c && startsWithIgnoreCase ps cs

/-- The delimiter characters: space, form feed, newline, carriage return, tab, vertical tab,
`/` and `>`. -/
def isDelimiter (c : Char) : Bool :=
  decide (c ∈ [' ', Char.ofNat 12, '\n', '\r', '\t', Char.ofNat 11, '/', '>'])

/-- The text `l` starts, up to case, with `name`, and a delimiter character follows at once. -/
def nameThenDelimiter (name l : List Char) : Bool :=
  startsWithIgnoreCase name l &&
  match l.drop name.length with
  | [] => false
  | d :: _ => isDelimiter d

/-- The component-name test in the words of the specification: the text at `cursor` is `<`
followed, up to case, by `cat-`, or by `document`, `head` or `body` and then a delimiter. -/
def componentNameAt (source : List Char) (cursor : Nat) : Bool :=
  match source.drop cursor with
  | [] => false
  | c :: rest =>
    c == '<' &&
    (startsWithIgnoreCase "cat-".toList rest ||
      nameThenDelimiter "document".toList rest ||
      nameThenDelimiter "head".toList rest ||
      nameThenDelimiter "body".toList rest)

/-- The text from index `c` on is `<` followed by `document`, `head` or `body` in any case,
and the source ends there: a recognised name cut off before its delimiter. -/
def truncatedNameAt (source : List Char) (c : Nat) : Bool :=
  match source.drop c with
  | [] => false
  | x :: nm =>
    x == '<' &&
    (nm.map Char.toLower == "document".toList ||
      nm.map Char.toLower == "head".toList ||
      nm.map Char.toLower == "body".toList)

/-- The classifier in the words of the specification: `END` at or past the end of the source;
otherwise `COMMENT` when `source[c..c+4)` is `<!--`; otherwise `CONTENT` when `source[c]` is
`<` and `source[c+1]` is `!`; otherwise `COMPONENT` when `source[c]` is `<` and the
component-name test matches at `c`; otherwise `CONTENT`. -/
def classify (source : List Char) (c : Nat) : STATES :=
  if c ≥ source.length then END
  else if slice source c (c + 4) = "<!--".toList then COMMENT
  else if source[c]? = some '<' ∧ source[c + 1]? = some '!' then CONTENT
  else if source[c]? = some '<' ∧ componentNameAt source c = true then COMPONENT
  else CONTENT

/-- What holds of the scanner between two calls of `next` in a session: the index is within
the source, and the state is `INITIAL`, `ILLEGAL`, or `END` with the index at the end. -/
def Inv (s : Scanner) : Prop :=
  s._currentIndex ≤ s._source.length ∧
  (s._currentState = INITIAL ∨ s._currentState = ILLEGAL ∨
    (s._currentState = END ∧ s._currentIndex = s._source.length))

/-! The scan loops -/

theorem contentLoop_spec (s : Scanner) :
    (contentLoop s)._source = s._source ∧
    s._currentIndex ≤ (contentLoop s)._currentIndex ∧
    (s._currentIndex ≤ s._source.length → (contentLoop s)._currentIndex ≤ s._source.length) ∧
    (∀ i, s._currentIndex ≤ i → i < (contentLoop s)._currentIndex → charAt s._source i ≠ '<') ∧
    (((contentLoop s)._currentIndex < s._source.length ∧
        charAt s._source (contentLoop s)._currentIndex = '<' ∧
        (contentLoop s)._currentState = INITIAL) ∨
      (s._source.length ≤ (contentLoop s)._currentIndex ∧
        (contentLoop s)._currentState = END)) := by
  induction s using contentLoop.induct with
  | case1 x hlt hc =>
    rw [contentLoop, if_pos hlt, if_pos hc]
    refine ⟨rfl, le_refl _, fun h => h, ?_, Or.inl ⟨hlt, by simpa using hc, rfl⟩⟩
    intro i h1 h2
    simp only at h2
    omega
  | case2 x hlt hc ih =>
    rw [contentLoop, if_pos hlt, if_neg hc]
    obtain ⟨h1, h2, h3, h4, h5⟩ := ih
    simp only at h1 h2 h3 h4 h5
    refine ⟨h1, by omega, fun _ => h3 (by omega), ?_, h5⟩
    intro i hi1 hi2
    rcases Nat.eq_or_lt_of_le hi1 with heq | hlt2
    · subst heq
      simpa using hc
    · exact h4 i (by omega) hi2
  | case3 x hlt =>
    rw [contentLoop, if_neg hlt]
    refine ⟨rfl, le_refl _, fun h => h, ?_, Or.inr ⟨by simp only; omega, rfl⟩⟩
    intro i h1 h2
    simp only at h2
    omega

theorem componentLoop_spec (s : Scanner) :
    (componentLoop s)._source = s._source ∧
    ((∃ j, s._currentIndex ≤ j ∧ j < s._source.length ∧ charAt s._source j = '>' ∧
        (∀ i, s._currentIndex ≤ i → i < j → charAt s._source i ≠ '>') ∧
        (componentLoop s)._currentIndex = j + 1 ∧
        (componentLoop s)._currentState = INITIAL) ∨
      ((∀ i, s._currentIndex ≤ i → i < s._source.length → charAt s._source i ≠ '>') ∧
        (componentLoop s)._currentIndex = max s._currentIndex s._source.length ∧
        (componentLoop s)._currentState = ILLEGAL)) := by
  induction s using componentLoop.induct with
  | case1 x hlt hc =>
    rw [componentLoop, if_pos hlt, if_pos hc]
    refine ⟨rfl, Or.inl ⟨x._currentIndex, le_refl _, hlt, by simpa using hc, ?_, rfl, rfl⟩⟩
    intro i h1 h2
    omega
  | case2 x hlt hc ih =>
    rw [componentLoop, if_pos hlt, if_neg hc]
    obtain ⟨h1, h2⟩ := ih
    simp only at h1 h2
    refine ⟨h1, ?_⟩
    have hx : charAt x._source x._currentIndex ≠ '>' := by simpa using hc
    rcases h2 with ⟨j, hj1, hj2, hj3, hj4, hj5, hj6⟩ | ⟨hn, hi, hs⟩
    · refine Or.inl ⟨j, by omega, hj2, hj3, ?_, hj5, hj6⟩
      intro i hi1 hi2
      rcases Nat.eq_or_lt_of_le hi1 with heq | hlt2
      · subst heq
        exact hx
      · exact hj4 i (by omega) hi2
    · refine Or.inr ⟨?_, by rw [hi]; omega, hs⟩
      intro i hi1 hi2
      rcases Nat.eq_or_lt_of_le hi1 with heq | hlt2
      · subst heq
        exact hx
      · exact hn i (by omega) hi2
  | case3 x hlt =>
    rw [componentLoop, if_neg hlt]
    refine ⟨rfl, Or.inr ⟨?_, by simp only; omega, rfl⟩⟩
    intro i h1 h2
    omega

theorem charAt_drop (l : List Char) (i k : Nat) : charAt (l.drop i) k = charAt l (i + k) := by
  simp [charAt, List.getD_eq_getElem?_getD, List.getElem?_drop]

theorem slice_eq_substr (l : List Char) (a b : Nat) : slice l a b = substr l a (b - a) := by
  simp [slice, substr, List.drop_take]

theorem terminatorAt_iff (source : List Char) (i : Nat) :
    terminatorAt source i ↔
      charAt source i = '-' ∧ charAt source (i + 1) = '-' ∧ charAt source (i + 2) = '>' := by
  unfold terminatorAt
  rw [slice_eq_substr, ← charAt_drop source i 1, ← charAt_drop source i 2]
  have h0 : charAt source i = charAt (source.drop i) 0 := by rw [charAt_drop]; rfl
  rw [h0]
  unfold substr
  generalize source.drop i = l
  have h3 : i + 3 - i = 3 := by omega
  rw [h3]
  rcases l with _ | ⟨a, _ | ⟨b, _ | ⟨c, l⟩⟩⟩ <;> simp [charAt]

theorem terminatorAt_lt {source : List Char} {i : Nat} (h : terminatorAt source i) :
    i + 2 < source.length := by
  rw [terminatorAt_iff] at h
  by_contra hge
  have : charAt source (i + 2) = Char.ofNat 0 := by
    simp only [charAt, List.getD_eq_getElem?_getD]
    rw [List.getElem?_eq_none (by omega)]
    rfl
  rw [this] at h
  exact absurd h.2.2 (by decide)

theorem commentLoop_spec (s : Scanner) :
    (commentLoop s)._source = s._source ∧
    ((∃ j, s._currentIndex ≤ j ∧ terminatorAt s._source j ∧
        (∀ i, s._currentIndex ≤ i → i < j → ¬ terminatorAt s._source i) ∧
        (commentLoop s)._currentIndex = j + 3 ∧
        (commentLoop s)._currentState = INITIAL) ∨
      ((∀ i, s._currentIndex ≤ i → ¬ terminatorAt s._source i) ∧
        (commentLoop s)._currentState = ILLEGAL ∧
        s._currentIndex ≤ (commentLoop s)._currentIndex ∧
        (commentLoop s)._currentIndex ≤ max s._currentIndex s._source.length ∧
        (((commentLoop s)._currentIndex < s._source.length ∧
            charAt s._source (commentLoop s)._currentIndex = '-' ∧
            s._source.length ≤ (commentLoop s)._currentIndex + 2) ∨
          s._source.length ≤ (commentLoop s)._currentIndex) ∧
        (∀ i, s._currentIndex ≤ i → i < (commentLoop s)._currentIndex →
          ¬ (charAt s._source i = '-' ∧ s._source.length ≤ i + 2)))) := by
  induction s using commentLoop.induct with
  | case1 x hlt hc hge =>
    rw [commentLoop, if_pos hlt, if_pos hc, if_pos hge]
    refine ⟨rfl, Or.inr ⟨?_, rfl, le_refl _, by simp only; omega,
      Or.inl ⟨hlt, by simpa using hc, hge⟩, ?_⟩⟩
    · intro i hi ht
      have := terminatorAt_lt ht
      omega
    · intro i h1 h2
      simp only at h2
      omega
  | case2 x hlt hc hge ht =>
    rw [commentLoop, if_pos hlt, if_pos hc, if_neg hge, if_pos ht]
    refine ⟨rfl, Or.inl ⟨x._currentIndex, le_refl _, ?_, ?_, rfl, rfl⟩⟩
    · rw [terminatorAt_iff]
      simp only [Bool.and_eq_true, beq_iff_eq] at ht
      exact ⟨by simpa using hc, ht.1, ht.2⟩
    · intro i h1 h2
      omega
  | case3 x hlt hc hge ht ih =>
    rw [commentLoop, if_pos hlt, if_pos hc, if_neg hge, if_neg ht]
    obtain ⟨h1, h2⟩ := ih
    simp only at h1 h2
    have hx : ¬ terminatorAt x._source x._currentIndex := by
      rw [terminatorAt_iff]
      simp only [Bool.and_eq_true, beq_iff_eq] at ht
      tauto
    have hy : ¬ (charAt x._source x._currentIndex = '-' ∧
        x._source.length ≤ x._currentIndex + 2) := by
      intro h
      exact hge h.2
    refine ⟨h1, ?_⟩
    rcases h2 with ⟨j, hj1, hj2, hj3, hj4, hj5⟩ | ⟨hn, hs, hi1, hi2, hi3, hi4⟩
    · refine Or.inl ⟨j, by omega, hj2, ?_, hj4, hj5⟩
      intro i hi1 hi2
      rcases Nat.eq_or_lt_of_le hi1 with heq | hlt2
      · subst heq
        exact hx
      · exact hj3 i (by omega) hi2
    · refine Or.inr ⟨?_, hs, by omega, by omega, hi3, ?_⟩
      · intro i hi
        rcases Nat.eq_or_lt_of_le hi with heq | hlt2
        · subst heq
          exact hx
        · exact hn i (by omega)
      · intro i hi hi5
        rcases Nat.eq_or_lt_of_le hi with heq | hlt2
        · subst heq
          exact hy
        · exact hi4 i (by omega) hi5
  | case4 x hlt hc ih =>
    rw [commentLoop, if_pos hlt, if_neg hc]
    obtain ⟨h1, h2⟩ := ih
    simp only at h1 h2
    have hc2 : charAt x._source x._currentIndex ≠ '-' := by simpa using hc
    have hx : ¬ terminatorAt x._source x._currentIndex := by
      rw [terminatorAt_iff]
      tauto
    have hy : ¬ (charAt x._source x._currentIndex = '-' ∧
        x._source.length ≤ x._currentIndex + 2) := by
      tauto
    refine ⟨h1, ?_⟩
    rcases h2 with ⟨j, hj1, hj2, hj3, hj4, hj5⟩ | ⟨hn, hs, hi1, hi2, hi3, hi4⟩
    · refine Or.inl ⟨j, by omega, hj2, ?_, hj4, hj5⟩
      intro i hi1 hi2
      rcases Nat.eq_or_lt_of_le hi1 with heq | hlt2
      · subst heq
        exact hx
      · exact hj3 i (by omega) hi2
    · refine Or.inr ⟨?_, hs, by omega, by omega, hi3, ?_⟩
      · intro i hi
        rcases Nat.eq_or_lt_of_le hi with heq | hlt2
        · subst heq
          exact hx
        · exact hn i (by omega)
      · intro i hi hi5
        rcases Nat.eq_or_lt_of_le hi with heq | hlt2
        · subst heq
          exact hy
        · exact hi4 i (by omega) hi5
  | case5 x hlt =>
    rw [commentLoop, if_neg hlt]
    refine ⟨rfl, Or.inr ⟨?_, rfl, le_refl _, by simp only; omega,
      Or.inr (by simp only; omega), ?_⟩⟩
    · intro i hi ht
      have := terminatorAt_lt ht
      omega
    · intro i h1 h2
      simp only at h2
      omega

/-! The classifier -/

theorem charAt_lt_of_ne {l : List Char} {k : Nat} (h : charAt l k ≠ Char.ofNat 0) :
    k < l.length := by
  by_contra hge
  apply h
  simp only [charAt, List.getD_eq_getElem?_getD]
  rw [List.getElem?_eq_none (by omega)]
  rfl

theorem charAt_lt_of_eq {l : List Char} {k : Nat} {c : Char} (h : charAt l k = c)
    (hc : c ≠ Char.ofNat 0) : k < l.length :=
  charAt_lt_of_ne (by rw [h]; exact hc)

theorem checkIfComponent_bound {s : Scanner} (h : checkIfComponent s = true) :
    s._currentIndex + 5 ≤ s._source.length := by
  have key : ∀ w : List Char,
      (is_cat w || is_document w || is_head w || is_body w) = true → 4 < w.length := by
    intro w hw
    simp only [is_cat, is_document, is_head, is_body, Bool.or_eq_true, Bool.and_eq_true,
      beq_iff_eq] at hw
    rcases hw with ((hw | hw) | hw) | hw
    · exact charAt_lt_of_eq hw.2 (by decide)
    · rcases hw.1.1.1.1.1.2 with h4 | h4 <;> exact charAt_lt_of_eq h4 (by decide)
    · rcases hw.1.2 with h4 | h4 <;> exact charAt_lt_of_eq h4 (by decide)
    · rcases hw.1.2 with h4 | h4 <;> exact charAt_lt_of_eq h4 (by decide)
  have h4 := key _ h
  simp only [substr, COMPONENT_NAME_MIN_LENGTH, List.length_take, List.length_drop] at h4
  omega

theorem initial_spec (s : Scanner) :
    (initial s)._source = s._source ∧
    (initial s)._currentIndex = s._currentIndex ∧
    (((initial s)._currentState = END ∧ s._source.length ≤ s._currentIndex) ∨
      ((initial s)._currentState = CONTENT ∧ s._currentIndex < s._source.length) ∨
      ((initial s)._currentState = COMPONENT ∧ s._currentIndex + 5 ≤ s._source.length) ∨
      ((initial s)._currentState = COMMENT ∧ s._currentIndex + 4 ≤ s._source.length)) := by
  unfold initial
  split_ifs with h1 h2 h3 h4 h5
  · exact ⟨rfl, rfl, Or.inl ⟨rfl, h1⟩⟩
  · refine ⟨rfl, rfl, Or.inr (Or.inr (Or.inr ⟨rfl, ?_⟩))⟩
    simp only [Bool.and_eq_true, beq_iff_eq] at h4
    have := charAt_lt_of_eq h4.2 (by decide)
    omega
  · exact ⟨rfl, rfl, Or.inr (Or.inl ⟨rfl, by omega⟩)⟩
  · exact ⟨rfl, rfl, Or.inr (Or.inr (Or.inl ⟨rfl, checkIfComponent_bound h5⟩))⟩
  · exact ⟨rfl, rfl, Or.inr (Or.inl ⟨rfl, by omega⟩)⟩
  · exact ⟨rfl, rfl, Or.inr (Or.inl ⟨rfl, by omega⟩)⟩

/-! One call of `next` -/

theorem _next_CONTENT {s : Scanner} (h : s._currentState = CONTENT) :
    _next s = emit s._currentIndex CONTENT (content s) := by
  rw [_next]
  split <;> simp_all

theorem _next_COMPONENT {s : Scanner} (h : s._currentState = COMPONENT) :
    _next s = emit s._currentIndex COMPONENT (component s) := by
  rw [_next]
  split <;> simp_all

theorem _next_COMMENT {s : Scanner} (h : s._currentState = COMMENT) :
    _next s = emit s._currentIndex COMMENT (comment s) := by
  rw [_next]
  split <;> simp_all

theorem _next_END {s : Scanner} (h : s._currentState = END) :
    _next s = ({ state := END, value := none }, s) := by
  rw [_next]
  split <;> simp_all

theorem _next_ILLEGAL {s : Scanner} (h : s._currentState = ILLEGAL) :
    _next s = ({ state := ILLEGAL, value := none }, s) := by
  rw [_next]
  split <;> simp_all

theorem _next_INITIAL {s : Scanner} (h : s._currentState = INITIAL) :
    _next s = _next (initial s) := by
  conv_lhs => rw [_next]
  split <;> simp_all

theorem initial_eq (s : Scanner) :
    initial s = { s with _currentState := (initial s)._currentState } := by
  obtain ⟨h1, h2, _⟩ := initial_spec s
  cases hs : initial s with
  | mk a b c =>
    rw [hs] at h1 h2
    simp only at h1 h2
    subst h1 h2
    rfl

theorem next_of_content {s : Scanner} (h : s._currentState = INITIAL)
    (hc : (initial s)._currentState = CONTENT) :
    next s = emit s._currentIndex CONTENT
      (contentLoop { s with _currentIndex := s._currentIndex + 1, _currentState := CONTENT }) := by
  rw [next, _next_INITIAL h, _next_CONTENT hc, (initial_spec s).2.1, initial_eq s, hc]
  rfl

theorem next_of_component {s : Scanner} (h : s._currentState = INITIAL)
    (hc : (initial s)._currentState = COMPONENT) :
    next s = emit s._currentIndex COMPONENT
      (componentLoop
        { s with _currentIndex := s._currentIndex + 5, _currentState := COMPONENT }) := by
  rw [next, _next_INITIAL h, _next_COMPONENT hc, (initial_spec s).2.1, initial_eq s, hc]
  rfl

theorem next_of_comment {s : Scanner} (h : s._currentState = INITIAL)
    (hc : (initial s)._currentState = COMMENT) :
    next s = emit s._currentIndex COMMENT
      (commentLoop { s with _currentIndex := s._currentIndex + 4, _currentState := COMMENT }) := by
  rw [next, _next_INITIAL h, _next_COMMENT hc, (initial_spec s).2.1, initial_eq s, hc]
  rfl

theorem next_of_end {s : Scanner} (h : s._currentState = INITIAL)
    (hc : (initial s)._currentState = END) :
    next s = ({ state := END, value := none }, { s with _currentState := END }) := by
  rw [next, _next_INITIAL h, _next_END hc, initial_eq s, hc]

theorem next_of_terminal {s : Scanner} (h : s._currentState = END ∨ s._currentState = ILLEGAL) :
    next s = ({ state := s._currentState, value := none }, s) := by
  rcases h with h | h
  · rw [next, _next_END h, h]
  · rw [next, _next_ILLEGAL h, h]

theorem step_of_emit {s r : Scanner} {st : STATES}
    (hnext : next s = emit s._currentIndex st r)
    (hst : st = CONTENT ∨ st = COMPONENT ∨ st = COMMENT)
    (hsrc : r._source = s._source)
    (hlt : s._currentIndex < r._currentIndex)
    (hle : r._currentIndex ≤ s._source.length)
    (hstate : r._currentState = INITIAL ∨ r._currentState = ILLEGAL ∨
      (r._currentState = END ∧ r._currentIndex = s._source.length)) :
    (next s).2._source = s._source ∧
    s._currentIndex ≤ (next s).2._currentIndex ∧
    Inv (next s).2 ∧
    ((isTerminal (next s).1.state = true ∧ (next s).1.value = none ∧
        (next s).2._currentIndex = s._currentIndex ∧
        (next s).2._currentState = (next s).1.state) ∨
      (((next s).1.state = CONTENT ∨ (next s).1.state = COMPONENT ∨
          (next s).1.state = COMMENT) ∧
        (next s).1.value = some (slice s._source s._currentIndex (next s).2._currentIndex) ∧
        s._currentIndex < (next s).2._currentIndex)) := by
  rw [hnext]
  refine ⟨hsrc, le_of_lt hlt, ⟨?_, ?_⟩, Or.inr ⟨hst, ?_, hlt⟩⟩
  · show r._currentIndex ≤ r._source.length
    rw [hsrc]
    exact hle
  · show r._currentState = INITIAL ∨ r._currentState = ILLEGAL ∨
      (r._currentState = END ∧ r._currentIndex = r._source.length)
    rw [hsrc]
    exact hstate
  · show some (substr r._source s._currentIndex (r._currentIndex - s._currentIndex)) = _
    rw [hsrc, slice_eq_substr]
    rfl

/-- One call of `next` on a scanner of a session: the source stays, the index does not go back
and stays within the source, and the token is either terminal with a null value (nothing
consumed) or a span token holding the text consumed, which is not empty. -/
theorem next_step {s : Scanner} (hI : Inv s) :
    (next s).2._source = s._source ∧
    s._currentIndex ≤ (next s).2._currentIndex ∧
    Inv (next s).2 ∧
    ((isTerminal (next s).1.state = true ∧ (next s).1.value = none ∧
        (next s).2._currentIndex = s._currentIndex ∧
        (next s).2._currentState = (next s).1.state) ∨
      (((next s).1.state = CONTENT ∨ (next s).1.state = COMPONENT ∨
          (next s).1.state = COMMENT) ∧
        (next s).1.value = some (slice s._source s._currentIndex (next s).2._currentIndex) ∧
        s._currentIndex < (next s).2._currentIndex)) := by
  obtain ⟨hle, hst⟩ := hI
  rcases hst with hi | hill | ⟨hend, hidx⟩
  · rcases (initial_spec s).2.2 with ⟨hc, hb⟩ | ⟨hc, hb⟩ | ⟨hc, hb⟩ | ⟨hc, hb⟩
    · rw [next_of_end hi hc]
      refine ⟨rfl, le_refl _, ⟨hle, Or.inr (Or.inr ⟨rfl, ?_⟩)⟩, Or.inl ⟨rfl, rfl, rfl, rfl⟩⟩
      simp only
      omega
    · obtain ⟨h1, h2, h3, _, h5⟩ := contentLoop_spec
        { s with _currentIndex := s._currentIndex + 1, _currentState := CONTENT }
      simp only at h1 h2 h3 h5
      have h3 := h3 (by omega)
      refine step_of_emit (next_of_content hi hc) (Or.inl rfl) h1 (by omega) h3 ?_
      rcases h5 with ⟨_, _, h⟩ | ⟨hh, h⟩
      · exact Or.inl h
      · exact Or.inr (Or.inr ⟨h, by omega⟩)
    · obtain ⟨h1, h2⟩ := componentLoop_spec
        { s with _currentIndex := s._currentIndex + 5, _currentState := COMPONENT }
      simp only at h1 h2
      rcases h2 with ⟨j, hj1, hj2, _, _, hj5, hj6⟩ | ⟨_, hi2, hs⟩
      · exact step_of_emit (next_of_component hi hc) (Or.inr (Or.inl rfl)) h1 (by omega)
          (by omega) (Or.inl hj6)
      · exact step_of_emit (next_of_component hi hc) (Or.inr (Or.inl rfl)) h1 (by omega)
          (by omega) (Or.inr (Or.inl hs))
    · obtain ⟨h1, h2⟩ := commentLoop_spec
        { s with _currentIndex := s._currentIndex + 4, _currentState := COMMENT }
      simp only at h1 h2
      rcases h2 with ⟨j, hj1, hj2, _, hj5, hj6⟩ | ⟨_, hs, hi1, hi2, _⟩
      · have := terminatorAt_lt hj2
        exact step_of_emit (next_of_comment hi hc) (Or.inr (Or.inr rfl)) h1 (by omega)
          (by omega) (Or.inl hj6)
      · exact step_of_emit (next_of_comment hi hc) (Or.inr (Or.inr rfl)) h1 (by omega)
          (by omega) (Or.inr (Or.inl hs))
  · rw [next_of_terminal (Or.inr hill)]
    refine ⟨rfl, le_refl _, ⟨hle, Or.inr (Or.inl hill)⟩, Or.inl ⟨?_, rfl, rfl, rfl⟩⟩
    simp [isTerminal, hill]
  · rw [next_of_terminal (Or.inl hend)]
    refine ⟨rfl, le_refl _, ⟨hle, Or.inr (Or.inr ⟨hend, hidx⟩)⟩, Or.inl ⟨?_, rfl, rfl, rfl⟩⟩
    simp [isTerminal, hend]

theorem scanner_eq {r : Scanner} {src : List Char} {i : Nat} {st : STATES}
    (h1 : r._source = src) (h2 : r._currentIndex = i) (h3 : r._currentState = st) :
    r = { _source := src, _currentIndex := i, _currentState := st } := by
  cases r
  simp only at h1 h2 h3
  subst h1 h2 h3
  rfl

theorem emit_eq (start : Nat) (state : STATES) (src : List Char) (i : Nat) (st : STATES) :
    emit start state { _source := src, _currentIndex := i, _currentState := st } =
      ({ state := state, value := some (slice src start i) },
        { _source := src, _currentIndex := i, _currentState := st }) := by
  simp only [emit, slice_eq_substr]

/-- The call of `next` when the classifier selects `CONTENT`. -/
theorem next_content_spec {s : Scanner} (h : s._currentState = INITIAL)
    (hc : (initial s)._currentState = CONTENT) :
    ∃ j, s._currentIndex < j ∧ j ≤ s._source.length ∧
      (∀ i, s._currentIndex < i → i < j → charAt s._source i ≠ '<') ∧
      (j < s._source.length → charAt s._source j = '<') ∧
      next s = ({ state := CONTENT, value := some (slice s._source s._currentIndex j) },
        { _source := s._source, _currentIndex := j,
          _currentState := if j < s._source.length then INITIAL else END }) := by
  have hb : s._currentIndex < s._source.length := by
    rcases (initial_spec s).2.2 with ⟨h', _⟩ | ⟨_, hb⟩ | ⟨h', _⟩ | ⟨h', _⟩
    · rw [hc] at h'; cases h'
    · exact hb
    · rw [hc] at h'; cases h'
    · rw [hc] at h'; cases h'
  obtain ⟨h1, h2, h3, h4, h5⟩ := contentLoop_spec
    { s with _currentIndex := s._currentIndex + 1, _currentState := CONTENT }
  simp only at h1 h2 h3 h4 h5
  refine ⟨_, by omega, h3 (by omega), fun i hi1 hi2 => h4 i (by omega) hi2, ?_, ?_⟩
  · intro hj
    rcases h5 with ⟨_, h, _⟩ | ⟨h, _⟩
    · exact h
    · omega
  · rw [next_of_content h hc]
    generalize contentLoop
      { s with _currentIndex := s._currentIndex + 1, _currentState := CONTENT } = r at *
    rcases h5 with ⟨hlt, _, hst⟩ | ⟨hge, hst⟩
    · rw [if_pos hlt, ← emit_eq, ← scanner_eq h1 rfl hst]
    · rw [if_neg (by omega), ← emit_eq, ← scanner_eq h1 rfl hst]

/-- The call of `next` when the classifier selects `COMPONENT`. -/
theorem next_component_spec {s : Scanner} (h : s._currentState = INITIAL)
    (hc : (initial s)._currentState = COMPONENT) :
    s._currentIndex + 5 ≤ s._source.length ∧
    ((∃ j, s._currentIndex + 5 ≤ j ∧ j < s._source.length ∧ charAt s._source j = '>' ∧
        (∀ i, s._currentIndex + 5 ≤ i → i < j → charAt s._source i ≠ '>') ∧
        next s = ({ state := COMPONENT, value := some (slice s._source s._currentIndex (j + 1)) },
          { _source := s._source, _currentIndex := j + 1, _currentState := INITIAL })) ∨
      ((∀ i, s._currentIndex + 5 ≤ i → i < s._source.length → charAt s._source i ≠ '>') ∧
        next s = ({ state := COMPONENT,
                    value := some (slice s._source s._currentIndex s._source.length) },
          { _source := s._source, _currentIndex := s._source.length,
            _currentState := ILLEGAL }))) := by
  have hb : s._currentIndex + 5 ≤ s._source.length := by
    rcases (initial_spec s).2.2 with ⟨h', _⟩ | ⟨h', _⟩ | ⟨_, hb⟩ | ⟨h', _⟩
    · rw [hc] at h'; cases h'
    · rw [hc] at h'; cases h'
    · exact hb
    · rw [hc] at h'; cases h'
  obtain ⟨h1, h2⟩ := componentLoop_spec
    { s with _currentIndex := s._currentIndex + 5, _currentState := COMPONENT }
  simp only at h1 h2
  refine ⟨hb, ?_⟩
  rw [next_of_component h hc]
  rcases h2 with ⟨j, hj1, hj2, hj3, hj4, hj5, hj6⟩ | ⟨hn, hi, hs⟩
  · refine Or.inl ⟨j, hj1, hj2, hj3, hj4, ?_⟩
    rw [scanner_eq h1 hj5 hj6, emit_eq]
  · refine Or.inr ⟨hn, ?_⟩
    rw [Nat.max_eq_right hb] at hi
    rw [scanner_eq h1 hi hs, emit_eq]

/-- The call of `next` when the classifier selects `COMMENT`. -/
theorem next_comment_spec {s : Scanner} (h : s._currentState = INITIAL)
    (hc : (initial s)._currentState = COMMENT) :
    s._currentIndex + 4 ≤ s._source.length ∧
    ((∃ j, s._currentIndex + 4 ≤ j ∧ terminatorAt s._source j ∧
        (∀ i, s._currentIndex + 4 ≤ i → i < j → ¬ terminatorAt s._source i) ∧
        next s = ({ state := COMMENT, value := some (slice s._source s._currentIndex (j + 3)) },
          { _source := s._source, _currentIndex := j + 3, _currentState := INITIAL })) ∨
      ((∀ i, s._currentIndex + 4 ≤ i → ¬ terminatorAt s._source i) ∧
        ∃ e, s._currentIndex + 4 ≤ e ∧ e ≤ s._source.length ∧
          (e < s._source.length → charAt s._source e = '-' ∧ s._source.length ≤ e + 2) ∧
          (∀ i, s._currentIndex + 4 ≤ i → i < e →
            ¬ (charAt s._source i = '-' ∧ s._source.length ≤ i + 2)) ∧
          next s = ({ state := COMMENT, value := some (slice s._source s._currentIndex e) },
            { _source := s._source, _currentIndex := e, _currentState := ILLEGAL }))) := by
  have hb : s._currentIndex + 4 ≤ s._source.length := by
    rcases (initial_spec s).2.2 with ⟨h', _⟩ | ⟨h', _⟩ | ⟨h', _⟩ | ⟨_, hb⟩
    · rw [hc] at h'; cases h'
    · rw [hc] at h'; cases h'
    · rw [hc] at h'; cases h'
    · exact hb
  obtain ⟨h1, h2⟩ := commentLoop_spec
    { s with _currentIndex := s._currentIndex + 4, _currentState := COMMENT }
  simp only at h1 h2
  refine ⟨hb, ?_⟩
  rw [next_of_comment h hc]
  rcases h2 with ⟨j, hj1, hj2, hj3, hj4, hj5⟩ | ⟨hn, hs, hi1, hi2, hi3, hi4⟩
  · refine Or.inl ⟨j, hj1, hj2, hj3, ?_⟩
    rw [scanner_eq h1 hj4 hj5, emit_eq]
  · refine Or.inr ⟨hn, _, hi1, by omega, ?_, hi4, ?_⟩
    · intro he
      rcases hi3 with ⟨_, h2, h3⟩ | h2
      · exact ⟨h2, h3⟩
      · omega
    · rw [scanner_eq h1 rfl hs, emit_eq]

theorem token_state_eq_initial {s : Scanner} (h : s._currentState = INITIAL) :
    (next s).1.state = (initial s)._currentState := by
  rcases (initial_spec s).2.2 with ⟨hc, _⟩ | ⟨hc, _⟩ | ⟨hc, _⟩ | ⟨hc, _⟩
  · rw [next_of_end h hc, hc]
  · rw [next_of_content h hc, hc]; rfl
  · rw [next_of_component h hc, hc]; rfl
  · rw [next_of_comment h hc, hc]; rfl

/-- A token of `next`, whatever the scanner: its state is never `INITIAL`; a terminal token
has a null value and leaves the scanner in the state it reports; any other token has a value. -/
theorem next_token_cases (s : Scanner) :
    (next s).1.state ≠ INITIAL ∧
    (isTerminal (next s).1.state = true →
      (next s).1.value = none ∧ (next s).2._currentState = (next s).1.state) ∧
    (isTerminal (next s).1.state = false → (next s).1.value ≠ none) := by
  cases hs : s._currentState with
  | ILLEGAL =>
    rw [next_of_terminal (Or.inr hs), hs]
    simp [isTerminal, hs]
  | END =>
    rw [next_of_terminal (Or.inl hs), hs]
    simp [isTerminal, hs]
  | CONTENT => rw [next, _next_CONTENT hs]; simp [emit, isTerminal]
  | COMPONENT => rw [next, _next_COMPONENT hs]; simp [emit, isTerminal]
  | COMMENT => rw [next, _next_COMMENT hs]; simp [emit, isTerminal]
  | INITIAL =>
    rcases (initial_spec s).2.2 with ⟨hc, _⟩ | ⟨hc, _⟩ | ⟨hc, _⟩ | ⟨hc, _⟩
    · rw [next_of_end hs hc]; simp [isTerminal]
    · rw [next_of_content hs hc]; simp [emit, isTerminal]
    · rw [next_of_component hs hc]; simp [emit, isTerminal]
    · rw [next_of_comment hs hc]; simp [emit, isTerminal]

/-! Sessions -/

theorem isTerminal_iff (st : STATES) : isTerminal st = true ↔ st = END ∨ st = ILLEGAL := by
  cases st <;> simp [isTerminal]

theorem Inv_setHTMLString (text : List Char) : Inv (setHTMLString text) :=
  ⟨Nat.zero_le _, Or.inl rfl⟩

theorem scannerAfter_succ (k : Nat) (s : Scanner) :
    scannerAfter (k + 1) s = (next (scannerAfter k s)).2 := by
  induction k generalizing s with
  | zero => rfl
  | succ k ih =>
    show scannerAfter (k + 1) (next s).2 = _
    rw [ih]
    rfl

theorem scannerAfter_add (k j : Nat) (s : Scanner) :
    scannerAfter (k + j) s = scannerAfter j (scannerAfter k s) := by
  induction k generalizing s with
  | zero => simp [scannerAfter]
  | succ k ih =>
    have : k + 1 + j = (k + j) + 1 := by omega
    rw [this]
    show scannerAfter (k + j) (next s).2 = scannerAfter j (scannerAfter k (next s).2)
    exact ih _

theorem scannerAfter_spec (k : Nat) {s : Scanner} (hI : Inv s) :
    Inv (scannerAfter k s) ∧ (scannerAfter k s)._source = s._source ∧
    s._currentIndex ≤ (scannerAfter k s)._currentIndex := by
  induction k generalizing s with
  | zero => exact ⟨hI, rfl, le_refl _⟩
  | succ k ih =>
    obtain ⟨h1, h2, h3, _⟩ := next_step hI
    obtain ⟨i1, i2, i3⟩ := ih h3
    exact ⟨i1, by rw [← h1]; exact i2, le_trans h2 i3⟩

theorem slice_append_slice (l : List Char) {a b c : Nat} (hab : a ≤ b) (hbc : b ≤ c) :
    slice l a b ++ slice l b c = slice l a c := by
  unfold slice
  have h1 : l.take b = (l.take c).take b := by
    rw [List.take_take, Nat.min_eq_left hbc]
  rw [h1]
  generalize l.take c = m
  conv_rhs => rw [← List.take_append_drop b m, List.drop_append_eq_append_drop]
  congr 1
  rw [List.length_take]
  by_cases h : b ≤ m.length
  · have : a - min b m.length = 0 := by omega
    rw [this]
    rfl
  · rw [List.drop_eq_nil_of_le (by omega)]
    simp

theorem slice_self (l : List Char) (a : Nat) : slice l a a = [] := by
  simp [slice_eq_substr, substr]

theorem slice_zero_length (l : List Char) : slice l 0 l.length = l := by
  simp [slice]

theorem slice_cons (l : List Char) {a b : Nat} (hab : a < b) (ha : a < l.length) :
    slice l a b = charAt l a :: slice l (a + 1) b := by
  have h1 : slice l a b = slice l a (a + 1) ++ slice l (a + 1) b :=
    (slice_append_slice l (Nat.le_succ a) hab).symm
  rw [h1]
  have h2 : slice l a (a + 1) = [charAt l a] := by
    rw [slice_eq_substr, substr, charAt, List.getD_eq_getElem?_getD]
    have h3 : a + 1 - a = 1 := by omega
    rw [h3, List.drop_eq_getElem_cons ha, List.getElem?_eq_getElem ha]
    rfl
  rw [h2]
  rfl

theorem charAt_of_mem_slice {l : List Char} {a b : Nat} {x : Char} (h : x ∈ slice l a b) :
    ∃ i, a ≤ i ∧ i < b ∧ i < l.length ∧ charAt l i = x := by
  rw [slice, List.mem_iff_getElem?] at h
  obtain ⟨n, hn⟩ := h
  rw [List.getElem?_drop, List.getElem?_take] at hn
  split_ifs at hn with hlt
  · have hlen : a + n < l.length := by
      by_contra hge
      rw [List.getElem?_eq_none (by omega)] at hn
      cases hn
    refine ⟨a + n, by omega, hlt, hlen, ?_⟩
    rw [charAt, List.getD_eq_getElem?_getD, hn]
    rfl

/-- The values returned by the first `k` calls, joined, are the text between the index the
calls started at and the index they left. -/
theorem concatValues_tokens (k : Nat) {s : Scanner} (hI : Inv s) :
    concatValues (tokens k s) = slice s._source s._currentIndex (scannerAfter k s)._currentIndex := by
  induction k generalizing s with
  | zero => simp [tokens, concatValues, scannerAfter, slice_self]
  | succ k ih =>
    obtain ⟨h1, h2, h3, h4⟩ := next_step hI
    have ih2 := ih h3
    obtain ⟨_, _, i3⟩ := scannerAfter_spec k h3
    show concatValues ((next s).1 :: tokens k (next s).2) =
      slice s._source s._currentIndex (scannerAfter k (next s).2)._currentIndex
    rw [h1] at ih2
    rcases h4 with ⟨_, hv, hidx, _⟩ | ⟨_, hv, _⟩
    · simp only [concatValues, hv]
      rw [ih2, hidx]
    · simp only [concatValues, hv]
      rw [ih2]
      exact slice_append_slice _ h2 i3

theorem scannerAfter_of_terminal {s : Scanner}
    (h : s._currentState = END ∨ s._currentState = ILLEGAL) (j : Nat) :
    scannerAfter j s = s := by
  induction j with
  | zero => rfl
  | succ j ih =>
    show scannerAfter j (next s).2 = s
    rw [next_of_terminal h]
    exact ih

/-- The list `tokens k s` holds the tokens of the calls number `0`, ..., `k - 1`. -/
theorem tokens_eq_map (k : Nat) (s : Scanner) :
    tokens k s = (List.range k).map (fun i => tokenAt i s) := by
  induction k generalizing s with
  | zero => rfl
  | succ k ih =>
    rw [List.range_succ_eq_map, List.map_cons, List.map_map]
    show (next s).1 :: tokens k (next s).2 = _
    rw [ih]
    rfl

/-- The scanner of a session, between two calls: `Inv` holds and the source is the text. -/
theorem session_spec (text : List Char) (k : Nat) :
    Inv (scannerAfter k (setHTMLString text)) ∧
    (scannerAfter k (setHTMLString text))._source = text := by
  obtain ⟨i1, i2, _⟩ := scannerAfter_spec k (Inv_setHTMLString text)
  exact ⟨i1, by rw [i2]; rfl⟩

theorem content_token_inv {s : Scanner} (hI : Inv s) (ht : (next s).1.state = CONTENT) :
    s._currentState = INITIAL ∧ (initial s)._currentState = CONTENT := by
  rcases hI.2 with h | h | ⟨h, _⟩
  · exact ⟨h, by rw [← token_state_eq_initial h]; exact ht⟩
  · rw [next_of_terminal (Or.inr h), h] at ht
    cases ht
  · rw [next_of_terminal (Or.inl h), h] at ht
    cases ht

/-- After `k` calls in a session, either one of them returned a terminal token or the index
is at least `k`. -/
theorem session_progress (text : List Char) (k : Nat) :
    (∃ j, j < k ∧ isTerminal (tokenAt j (setHTMLString text)).state = true) ∨
    k ≤ (scannerAfter k (setHTMLString text))._currentIndex := by
  induction k with
  | zero => exact Or.inr (Nat.zero_le _)
  | succ k ih =>
    rcases ih with ⟨j, hj, ht⟩ | hle
    · exact Or.inl ⟨j, by omega, ht⟩
    · obtain ⟨i1, _⟩ := session_spec text k
      rcases (next_step i1).2.2.2 with ⟨ht, _⟩ | ⟨_, _, hlt⟩
      · exact Or.inl ⟨k, by omega, ht⟩
      · refine Or.inr ?_
        rw [scannerAfter_succ]
        omega

/-! The component-name test -/

theorem toNat_ofNat_small (m : Nat) (h : m < 55296) : (Char.ofNat m).toNat = m := by
  have hv : m.isValidChar := Or.inl h
  simp [Char.ofNat, hv, Char.ofNatAux, Char.toNat, Char.ofNatAux, UInt32.toNat]

theorem toLower_eq_iff (c p : Char) (h1 : 97 ≤ p.toNat) (h2 : p.toNat ≤ 122) :
    c.toLower = p ↔ c = p ∨ c = Char.ofNat (p.toNat - 32) := by
  unfold Char.toLower
  simp only
  split_ifs with hc
  · constructor
    · intro h
      right
      have h3 := congrArg Char.toNat h
      rw [toNat_ofNat_small _ (by omega)] at h3
      have h4 : p.toNat - 32 = c.toNat := by omega
      rw [h4, Char.ofNat_toNat]
    · rintro (rfl | h)
      · omega
      · have h3 := congrArg Char.toNat h
        rw [toNat_ofNat_small _ (by omega)] at h3
        have h4 : c.toNat + 32 = p.toNat := by omega
        rw [h4, Char.ofNat_toNat]
  · constructor
    · intro h; exact Or.inl h
    · rintro (rfl | h)
      · rfl
      · exfalso
        have h3 := congrArg Char.toNat h
        rw [toNat_ofNat_small _ (by omega)] at h3
        omega

theorem toLower_eq_iff_of_lt (c p : Char) (h1 : p.toNat < 65) : c.toLower = p ↔ c = p := by
  unfold Char.toLower
  simp only
  split_ifs with hc
  · constructor
    · intro h
      have h3 := congrArg Char.toNat h
      rw [toNat_ofNat_small _ (by omega)] at h3
      omega
    · rintro rfl
      omega
  · exact Iff.rfl

/-- Up to case, a character equals the lower-case letter `p` exactly when it is `p` or the
upper-case letter `u` of `p`. -/
theorem eqIgnoreCase_letter (p u c : Char)
    (h : 97 ≤ p.toNat ∧ p.toNat ≤ 122 ∧ u = Char.ofNat (p.toNat - 32)) :
    eqIgnoreCase p c = (c == p || c == u) := by
  obtain ⟨h1, h2, rfl⟩ := h
  have hp : p.toLower = p := by
    unfold Char.toLower
    simp only
    rw [if_neg (by omega)]
  rw [eqIgnoreCase, hp, Bool.eq_iff_iff]
  simp only [beq_iff_eq, Bool.or_eq_true]
  rw [eq_comm]
  exact toLower_eq_iff c p h1 h2

theorem eqIgnoreCase_hyphen (c : Char) : eqIgnoreCase '-' c = (c == '-') := by
  have hp : '-'.toLower = '-' := by decide
  rw [eqIgnoreCase, hp, Bool.eq_iff_iff]
  simp only [beq_iff_eq]
  rw [eq_comm]
  exact toLower_eq_iff_of_lt c '-' (by decide)

theorem charAt_take (l : List Char) {n i : Nat} (h : i < n) :
    charAt (l.take n) i = charAt l i := by
  simp [charAt, List.getD_eq_getElem?_getD, List.getElem?_take, h]

theorem isDelimiter_eq (c : Char) : isDelimiter c = is_space_or_end c := by
  have h12 : Char.ofNat 12 = '\x0c' := by decide
  have h11 : Char.ofNat 11 = '\x0b' := by decide
  rw [Bool.eq_iff_iff]
  simp only [isDelimiter, is_space_or_end, h12, h11, List.mem_cons, List.mem_singleton,
    decide_eq_true_eq, Bool.or_eq_true, beq_iff_eq, List.mem_nil_iff, or_false]
  tauto

theorem is_cat_eq (l : List Char) :
    is_cat (l.take 10) =
      (match l with
        | [] => false
        | c :: rest => c == '<' && startsWithIgnoreCase "cat-".toList rest) := by
  simp only [is_cat]
  simp only [charAt_take l (show 0 < 10 by decide), charAt_take l (show 1 < 10 by decide),
    charAt_take l (show 2 < 10 by decide), charAt_take l (show 3 < 10 by decide),
    charAt_take l (show 4 < 10 by decide)]
  have hc := fun c => eqIgnoreCase_letter 'c' 'C' c (by decide)
  have ha := fun c => eqIgnoreCase_letter 'a' 'A' c (by decide)
  have ht := fun c => eqIgnoreCase_letter 't' 'T' c (by decide)
  rcases l with _ | ⟨c0, _ | ⟨c1, _ | ⟨c2, _ | ⟨c3, _ | ⟨c4, l⟩⟩⟩⟩⟩ <;>
    simp [charAt, startsWithIgnoreCase, hc, ha, ht, eqIgnoreCase_hyphen, Bool.and_assoc]

theorem is_head_eq (l : List Char) :
    is_head (l.take 10) =
      (match l with
        | [] => false
        | c :: rest => c == '<' && nameThenDelimiter "head".toList rest) := by
  simp only [is_head]
  simp only [charAt_take l (show 0 < 10 by decide), charAt_take l (show 1 < 10 by decide),
    charAt_take l (show 2 < 10 by decide), charAt_take l (show 3 < 10 by decide),
    charAt_take l (show 4 < 10 by decide), charAt_take l (show 5 < 10 by decide)]
  have hh := fun c => eqIgnoreCase_letter 'h' 'H' c (by decide)
  have he := fun c => eqIgnoreCase_letter 'e' 'E' c (by decide)
  have ha := fun c => eqIgnoreCase_letter 'a' 'A' c (by decide)
  have hd := fun c => eqIgnoreCase_letter 'd' 'D' c (by decide)
  have hnul : is_space_or_end (Char.ofNat 0) = false := by decide
  rcases l with _ | ⟨c0, _ | ⟨c1, _ | ⟨c2, _ | ⟨c3, _ | ⟨c4, _ | ⟨c5, l⟩⟩⟩⟩⟩⟩ <;>
    simp [charAt, startsWithIgnoreCase, nameThenDelimiter, hh, he, ha, hd, hnul,
      isDelimiter_eq, Bool.and_assoc]

theorem is_body_eq (l : List Char) :
    is_body (l.take 10) =
      (match l with
        | [] => false
        | c :: rest => c == '<' && nameThenDelimiter "body".toList rest) := by
  simp only [is_body]
  simp only [charAt_take l (show 0 < 10 by decide), charAt_take l (show 1 < 10 by decide),
    charAt_take l (show 2 < 10 by decide), charAt_take l (show 3 < 10 by decide),
    charAt_take l (show 4 < 10 by decide), charAt_take l (show 5 < 10 by decide)]
  have hb := fun c => eqIgnoreCase_letter 'b' 'B' c (by decide)
  have ho := fun c => eqIgnoreCase_letter 'o' 'O' c (by decide)
  have hd := fun c => eqIgnoreCase_letter 'd' 'D' c (by decide)
  have hy := fun c => eqIgnoreCase_letter 'y' 'Y' c (by decide)
  have hnul : is_space_or_end (Char.ofNat 0) = false := by decide
  rcases l with _ | ⟨c0, _ | ⟨c1, _ | ⟨c2, _ | ⟨c3, _ | ⟨c4, _ | ⟨c5, l⟩⟩⟩⟩⟩⟩ <;>
    simp [charAt, startsWithIgnoreCase, nameThenDelimiter, hb, ho, hd, hy, hnul,
      isDelimiter_eq, Bool.and_assoc]

theorem is_document_eq (l : List Char) :
    is_document (l.take 10) =
      (match l with
        | [] => false
        | c :: rest => c == '<' && nameThenDelimiter "document".toList rest) := by
  simp only [is_document]
  simp only [charAt_take l (show 0 < 10 by decide), charAt_take l (show 1 < 10 by decide),
    charAt_take l (show 2 < 10 by decide), charAt_take l (show 3 < 10 by decide),
    charAt_take l (show 4 < 10 by decide), charAt_take l (show 5 < 10 by decide),
    charAt_take l (show 6 < 10 by decide), charAt_take l (show 7 < 10 by decide),
    charAt_take l (show 8 < 10 by decide), charAt_take l (show 9 < 10 by decide)]
  have hd := fun c => eqIgnoreCase_letter 'd' 'D' c (by decide)
  have ho := fun c => eqIgnoreCase_letter 'o' 'O' c (by decide)
  have hc := fun c => eqIgnoreCase_letter 'c' 'C' c (by decide)
  have hu := fun c => eqIgnoreCase_letter 'u' 'U' c (by decide)
  have hm := fun c => eqIgnoreCase_letter 'm' 'M' c (by decide)
  have he := fun c => eqIgnoreCase_letter 'e' 'E' c (by decide)
  have hn := fun c => eqIgnoreCase_letter 'n' 'N' c (by decide)
  have ht := fun c => eqIgnoreCase_letter 't' 'T' c (by decide)
  have hnul : is_space_or_end (Char.ofNat 0) = false := by decide
  rcases l with _ | ⟨c0, _ | ⟨c1, _ | ⟨c2, _ | ⟨c3, _ | ⟨c4, _ | ⟨c5, _ | ⟨c6, _ | ⟨c7,
    _ | ⟨c8, _ | ⟨c9, l⟩⟩⟩⟩⟩⟩⟩⟩⟩⟩ <;>
    simp [charAt, startsWithIgnoreCase, nameThenDelimiter, hd, ho, hc, hu, hm, he, hn, ht, hnul,
      isDelimiter_eq, Bool.and_assoc]

theorem checkIfComponent_eq (s : Scanner) :
    checkIfComponent s = componentNameAt s._source s._currentIndex := by
  simp only [checkIfComponent, componentNameAt, substr, COMPONENT_NAME_MIN_LENGTH]
  rw [is_cat_eq, is_document_eq, is_head_eq, is_body_eq]
  cases s._source.drop s._currentIndex with
  | nil => rfl
  | cons c rest => simp only [Bool.and_or_distrib_left]

/-! The claims -/

/-- C1 (coverage): if call number `k` of `next` after `setHTMLString text` returns a token
with state `END`, the non-null values returned by the calls `0`, ..., `k`, joined in call
order, are exactly `text`. -/
theorem coverage (text : List Char) (k : Nat)
    (hEnd : (tokenAt k (setHTMLString text)).state = END) :
    concatValues (tokens (k + 1) (setHTMLString text)) = text := by
  obtain ⟨i1, i2⟩ := session_spec text k
  obtain ⟨j1, j2⟩ := session_spec text (k + 1)
  rw [concatValues_tokens (k + 1) (Inv_setHTMLString text)]
  have hst : (scannerAfter (k + 1) (setHTMLString text))._currentState = END := by
    rw [scannerAfter_succ, ((next_token_cases _).2.1 _).2]
    · exact hEnd
    · rw [isTerminal_iff]
      exact Or.inl hEnd
  have hidx : (scannerAfter (k + 1) (setHTMLString text))._currentIndex = text.length := by
    rcases j1.2 with h | h | ⟨_, h⟩
    · rw [hst] at h
      cases h
    · rw [hst] at h
      cases h
    · rw [h, j2]
  rw [hidx]
  exact slice_zero_length text

/-- Witness of C1 on the text `hello`: call number `1` returns `END`. -/
theorem coverage_witness :
    (tokenAt 1 (setHTMLString "hello".toList)).state = END ∧
    concatValues (tokens 2 (setHTMLString "hello".toList)) = "hello".toList :=
  have h : (tokenAt 1 (setHTMLString "hello".toList)).state = END := by
    simp [tokenAt, scannerAfter, next, _next, setHTMLString, initial, content, contentLoop,
      emit, charAt, substr]
  ⟨h, coverage "hello".toList 1 h⟩

/-- C2 (idempotent terminals): on a scanner whose state is `END` or `ILLEGAL`, `next` returns
the token with that state and a null value and leaves the scanner as it was; and once call
number `k` has returned a token with state `END` or `ILLEGAL`, every later call returns that
same token. -/
theorem idempotent_terminals (s : Scanner) :
    ((s._currentState = END ∨ s._currentState = ILLEGAL) →
      next s = ({ state := s._currentState, value := none }, s)) ∧
    (∀ k, ((tokenAt k s).state = END ∨ (tokenAt k s).state = ILLEGAL) →
      ∀ j, k ≤ j → tokenAt j s = tokenAt k s) := by
  refine ⟨next_of_terminal, ?_⟩
  intro k hk j hkj
  rcases Nat.eq_or_lt_of_le hkj with heq | hlt
  · rw [heq]
  · obtain ⟨m, rfl⟩ : ∃ m, j = (k + 1) + m := ⟨j - (k + 1), by omega⟩
    obtain ⟨hv, hst⟩ := (next_token_cases (scannerAfter k s)).2.1 ((isTerminal_iff _).2 hk)
    have hterm : (scannerAfter (k + 1) s)._currentState = END ∨
        (scannerAfter (k + 1) s)._currentState = ILLEGAL := by
      rw [scannerAfter_succ, hst]
      exact hk
    unfold tokenAt
    rw [scannerAfter_add, scannerAfter_of_terminal hterm, next_of_terminal hterm,
      scannerAfter_succ, hst]
    cases hn : next (scannerAfter k s) with
    | mk t r =>
      rw [hn] at hv
      cases t with
      | mk st v =>
        simp only at hv
        rw [hv]

/-- Witness of C2: the scanner that the text `a` leaves after two calls is in state `END`, and
call number `1` returned `END`. -/
theorem idempotent_terminals_witness :
    (({ _source := ['a'], _currentIndex := 1, _currentState := END } : Scanner)._currentState
        = END ∨
      ({ _source := ['a'], _currentIndex := 1, _currentState := END } : Scanner)._currentState
        = ILLEGAL) ∧
    next { _source := ['a'], _currentIndex := 1, _currentState := END } =
      ({ state := END, value := none },
        { _source := ['a'], _currentIndex := 1, _currentState := END }) ∧
    ((tokenAt 1 (setHTMLString ['a'])).state = END ∨
      (tokenAt 1 (setHTMLString ['a'])).state = ILLEGAL) ∧
    tokenAt 5 (setHTMLString ['a']) = tokenAt 1 (setHTMLString ['a']) :=
  have h : (tokenAt 1 (setHTMLString ['a'])).state = END ∨
      (tokenAt 1 (setHTMLString ['a'])).state = ILLEGAL := by
    simp [tokenAt, scannerAfter, next, _next, setHTMLString, initial, content, contentLoop,
      emit, charAt, substr]
  ⟨Or.inl rfl,
    (idempotent_terminals { _source := ['a'], _currentIndex := 1, _currentState := END }).1
      (Or.inl rfl),
    h, (idempotent_terminals (setHTMLString ['a'])).2 1 h 5 (by decide)⟩

/-- C3 (no `INITIAL` leak): after `setHTMLString text`, the state of the token returned by any
call of `next` is `CONTENT`, `COMPONENT`, `COMMENT`, `END` or `ILLEGAL`, and never `INITIAL`. -/
theorem no_initial_leak (text : List Char) (k : Nat) :
    ((tokenAt k (setHTMLString text)).state = CONTENT ∨
      (tokenAt k (setHTMLString text)).state = COMPONENT ∨
      (tokenAt k (setHTMLString text)).state = COMMENT ∨
      (tokenAt k (setHTMLString text)).state = END ∨
      (tokenAt k (setHTMLString text)).state = ILLEGAL) ∧
    (tokenAt k (setHTMLString text)).state ≠ INITIAL := by
  have h := (next_token_cases (scannerAfter k (setHTMLString text))).1
  refine ⟨?_, h⟩
  unfold tokenAt
  cases hs : (next (scannerAfter k (setHTMLString text))).1.state <;> simp_all

/-- C4 (monotone bounded cursor): in a session over `text`, every call of `next` leaves the
index at or after its value before the call, and at most at `text.length`. -/
theorem cursor_monotone_bounded (text : List Char) (k : Nat) :
    (scannerAfter k (setHTMLString text))._currentIndex ≤
      (next (scannerAfter k (setHTMLString text))).2._currentIndex ∧
    (next (scannerAfter k (setHTMLString text))).2._currentIndex ≤ text.length := by
  obtain ⟨i1, _⟩ := session_spec text k
  obtain ⟨j1, j2⟩ := session_spec text (k + 1)
  rw [scannerAfter_succ] at j1 j2
  refine ⟨(next_step i1).2.1, ?_⟩
  have := j1.1
  rw [j2] at this
  exact this

/-- C5 (token value): in a session over `text`, the token a call of `next` returns has a null
value exactly when its state is `END` or `ILLEGAL`; otherwise its state is `CONTENT`,
`COMPONENT` or `COMMENT` and its value is `text[c0..c1)`, for `c0` and `c1` the index before
and after the call. -/
theorem token_value (text : List Char) (k : Nat) :
    ((next (scannerAfter k (setHTMLString text))).1.value = none ↔
      ((next (scannerAfter k (setHTMLString text))).1.state = END ∨
        (next (scannerAfter k (setHTMLString text))).1.state = ILLEGAL)) ∧
    (¬ ((next (scannerAfter k (setHTMLString text))).1.state = END ∨
        (next (scannerAfter k (setHTMLString text))).1.state = ILLEGAL) →
      ((next (scannerAfter k (setHTMLString text))).1.state = CONTENT ∨
        (next (scannerAfter k (setHTMLString text))).1.state = COMPONENT ∨
        (next (scannerAfter k (setHTMLString text))).1.state = COMMENT) ∧
      (next (scannerAfter k (setHTMLString text))).1.value =
        some (slice text (scannerAfter k (setHTMLString text))._currentIndex
          (next (scannerAfter k (setHTMLString text))).2._currentIndex)) := by
  obtain ⟨i1, i2⟩ := session_spec text k
  obtain ⟨_, _, _, h4⟩ := next_step i1
  rw [i2] at h4
  rcases h4 with ⟨ht, hv, _, _⟩ | ⟨hs, hv, _⟩
  · rw [isTerminal_iff] at ht
    exact ⟨⟨fun _ => ht, fun _ => hv⟩, fun hn => absurd ht hn⟩
  · refine ⟨⟨fun h => ?_, fun h => ?_⟩, fun _ => ⟨hs, hv⟩⟩
    · rw [hv] at h
      cases h
    · rcases hs with hs | hs | hs <;> rcases h with h | h <;> rw [hs] at h <;> cases h

/-- Witness of C5 on the text `a<b`: the calls return `CONTENT` with `a`, `CONTENT` with `<b`,
then `END` with a null value. -/
theorem token_value_witness :
    tokens 3 (setHTMLString "a<b".toList) =
      [{ state := CONTENT, value := some "a".toList },
       { state := CONTENT, value := some "<b".toList },
       { state := END, value := none }] ∧
    ¬ ((next (scannerAfter 1 (setHTMLString "a<b".toList))).1.state = END ∨
        (next (scannerAfter 1 (setHTMLString "a<b".toList))).1.state = ILLEGAL) ∧
    (next (scannerAfter 1 (setHTMLString "a<b".toList))).1.value =
      some (slice "a<b".toList (scannerAfter 1 (setHTMLString "a<b".toList))._currentIndex
        (next (scannerAfter 1 (setHTMLString "a<b".toList))).2._currentIndex) :=
  have h : ¬ ((next (scannerAfter 1 (setHTMLString "a<b".toList))).1.state = END ∨
      (next (scannerAfter 1 (setHTMLString "a<b".toList))).1.state = ILLEGAL) := by
    simp [scannerAfter, next, _next, setHTMLString, initial, content, contentLoop,
      emit, charAt, substr, checkIfComponent, is_cat, is_document, is_head, is_body,
      COMPONENT_NAME_MIN_LENGTH]
  ⟨by simp [tokens, next, _next, setHTMLString, initial, content, contentLoop,
      emit, charAt, substr, checkIfComponent, is_cat, is_document, is_head, is_body,
      COMPONENT_NAME_MIN_LENGTH],
    h, ((token_value "a<b".toList 1).2 h).2⟩

/-- The classifier selects `COMMENT` at the start of a text that opens with `<!--`. -/
theorem initial_of_opener (rest : List Char) :
    (initial (setHTMLString ('<' :: '!' :: '-' :: '-' :: rest)))._currentState = COMMENT := by
  simp [initial, setHTMLString, charAt]

/-- C6, the claim as stated fails: the text `<!--unterminated` opens with `<!--` and has no
terminator from index `4` on, and the first call returns `COMMENT` with the whole text, not
`ILLEGAL` with a null value. -/
theorem unterminated_comment_counterexample :
    "<!--".toList <+: "<!--unterminated".toList ∧
    (∀ i, 4 ≤ i → ¬ terminatorAt "<!--unterminated".toList i) ∧
    tokenAt 0 (setHTMLString "<!--unterminated".toList) =
      { state := COMMENT, value := some "<!--unterminated".toList } ∧
    tokenAt 0 (setHTMLString "<!--unterminated".toList) ≠ { state := ILLEGAL, value := none } := by
  refine ⟨by decide, ?_, ?_, ?_⟩
  · intro i _ ht
    have hlt := terminatorAt_lt ht
    simp only [String.toList, List.length_cons, List.length_nil] at hlt
    have hi : i < 14 := by omega
    interval_cases i <;> simp [terminatorAt, slice] at ht
  · simp [tokenAt, scannerAfter, next, _next, setHTMLString, initial, comment, commentLoop,
      emit, charAt, substr]
  · simp [tokenAt, scannerAfter, next, _next, setHTMLString, initial, comment, commentLoop,
      emit, charAt, substr]

/-- C6, amended: for a text that opens with `<!--` and has no terminator `-->` from index `4`
on, the first call returns `COMMENT` with a prefix of the text at least as long as the opener,
and it is the second call that returns `ILLEGAL` with a null value; for `<!--unterminated` the
two calls return `COMMENT` with the whole text, then `ILLEGAL` with a null value. -/
theorem unterminated_comment :
    (∀ text : List Char, "<!--".toList <+: text →
      (∀ i, 4 ≤ i → ¬ terminatorAt text i) →
      ∃ c, 4 ≤ c ∧ c ≤ text.length ∧
        tokenAt 0 (setHTMLString text) = { state := COMMENT, value := some (slice text 0 c) } ∧
        tokenAt 1 (setHTMLString text) = { state := ILLEGAL, value := none }) ∧
    tokens 2 (setHTMLString "<!--unterminated".toList) =
      [{ state := COMMENT, value := some "<!--unterminated".toList },
       { state := ILLEGAL, value := none }] := by
  refine ⟨?_, ?_⟩
  · intro text hopen hno
    obtain ⟨rest, rfl⟩ := hopen
    obtain ⟨_, h2⟩ := next_comment_spec
      (s := setHTMLString ('<' :: '!' :: '-' :: '-' :: rest)) rfl (initial_of_opener rest)
    rcases h2 with ⟨j, hj1, hj2, _⟩ | ⟨_, e, he1, he2, _, _, hn⟩
    · exact absurd hj2 (hno j hj1)
    · refine ⟨e, he1, he2, ?_, ?_⟩
      · show (next (setHTMLString ('<' :: '!' :: '-' :: '-' :: rest))).1 = _
        rw [hn]
        rfl
      · show (next (next (setHTMLString ('<' :: '!' :: '-' :: '-' :: rest))).2).1 = _
        rw [hn, next_of_terminal (Or.inr rfl)]
  · simp [tokens, next, _next, setHTMLString, initial, comment, commentLoop,
      emit, charAt, substr]

/-- Witness of the amended C6 on the text `<!--a-b`, whose scan stops early at the `-`. -/
theorem unterminated_comment_witness :
    "<!--".toList <+: "<!--a-b".toList ∧
    (∀ i, 4 ≤ i → ¬ terminatorAt "<!--a-b".toList i) ∧
    ∃ c, 4 ≤ c ∧ c ≤ "<!--a-b".toList.length ∧
      tokenAt 0 (setHTMLString "<!--a-b".toList) =
        { state := COMMENT, value := some (slice "<!--a-b".toList 0 c) } ∧
      tokenAt 1 (setHTMLString "<!--a-b".toList) = { state := ILLEGAL, value := none } :=
  have h1 : "<!--".toList <+: "<!--a-b".toList := by decide
  have h2 : ∀ i, 4 ≤ i → ¬ terminatorAt "<!--a-b".toList i := by
    intro i _ ht
    have hlt := terminatorAt_lt ht
    simp only [String.toList, List.length_cons, List.length_nil] at hlt
    have hi : i < 5 := by omega
    interval_cases i
    simp [terminatorAt, slice] at ht
  ⟨h1, h2, unterminated_comment.1 "<!--a-b".toList h1 h2⟩

/-- C7, the claim as stated fails: after `setHTMLString` of `<head>x</head>` the calls number
`1` and `2` both return `CONTENT`, and the first three tokens are not the ones claimed. -/
theorem maximal_content_counterexample :
    (tokenAt 1 (setHTMLString "<head>x</head>".toList)).state = CONTENT ∧
    (tokenAt 2 (setHTMLString "<head>x</head>".toList)).state = CONTENT ∧
    tokens 3 (setHTMLString "<head>x</head>".toList) ≠
      [{ state := COMPONENT, value := some "<head>".toList },
       { state := CONTENT, value := some "x</head>".toList },
       { state := END, value := none }] := by
  simp [tokenAt, scannerAfter, tokens, next, _next, setHTMLString, initial, content, contentLoop,
    component, componentLoop, emit, charAt, substr, checkIfComponent, is_cat, is_document,
    is_head, is_body, is_space_or_end, COMPONENT_NAME_MIN_LENGTH]

/-- C7, amended: a content span stops before every `<`, so the value of a `CONTENT` token has
no `<` after its first character, and when a `CONTENT` token is immediately followed by another
`CONTENT` token the value of the second one begins with `<` (an unrecognised `<` construct
starts a content span of its own); `<head>x</head>` yields exactly `COMPONENT` with `<head>`,
`CONTENT` with `x`, `CONTENT` with `</head>`, then `END` with a null value. -/
theorem content_spans :
    (∀ (text : List Char) (k : Nat),
      (tokenAt k (setHTMLString text)).state = CONTENT →
      ∃ c v, (tokenAt k (setHTMLString text)).value = some (c :: v) ∧ '<' ∉ v ∧
        ((tokenAt (k + 1) (setHTMLString text)).state = CONTENT →
          ∃ w, (tokenAt (k + 1) (setHTMLString text)).value = some ('<' :: w))) ∧
    tokens 4 (setHTMLString "<head>x</head>".toList) =
      [{ state := COMPONENT, value := some "<head>".toList },
       { state := CONTENT, value := some "x".toList },
       { state := CONTENT, value := some "</head>".toList },
       { state := END, value := none }] := by
  refine ⟨?_, ?_⟩
  · intro text k hk
    obtain ⟨i1, i2⟩ := session_spec text k
    obtain ⟨j1, _⟩ := session_spec text (k + 1)
    unfold tokenAt at hk ⊢
    obtain ⟨hs, hc⟩ := content_token_inv i1 hk
    obtain ⟨j, hj1, hj2, hj3, hj4, hn⟩ := next_content_spec hs hc
    have hc0 : (scannerAfter k (setHTMLString text))._currentIndex <
        (scannerAfter k (setHTMLString text))._source.length := by omega
    refine ⟨_, _, by rw [hn]; exact congrArg some (slice_cons _ hj1 hc0), ?_, ?_⟩
    · intro hmem
      obtain ⟨i, hi1, hi2, _, hi4⟩ := charAt_of_mem_slice hmem
      exact hj3 i (by omega) hi2 hi4
    · intro hk1
      obtain ⟨hs1, hc1⟩ := content_token_inv j1 hk1
      have hsucc : scannerAfter (k + 1) (setHTMLString text) =
          { _source := (scannerAfter k (setHTMLString text))._source, _currentIndex := j,
            _currentState :=
              if j < (scannerAfter k (setHTMLString text))._source.length
              then INITIAL else END } := by
        rw [scannerAfter_succ, hn]
      have hjlt : j < (scannerAfter k (setHTMLString text))._source.length := by
        by_contra hge
        rw [hsucc, if_neg hge] at hs1
        cases hs1
      obtain ⟨j', hj1', _, _, _, hn'⟩ := next_content_spec hs1 hc1
      rw [hn']
      rw [hsucc] at hj1' ⊢
      simp only at hj1' ⊢
      refine ⟨slice (scannerAfter k (setHTMLString text))._source (j + 1) j', ?_⟩
      rw [slice_cons _ hj1' hjlt, hj4 hjlt]
  · simp [tokens, next, _next, setHTMLString, initial, content, contentLoop,
      component, componentLoop, emit, charAt, substr, checkIfComponent, is_cat, is_document,
      is_head, is_body, is_space_or_end, COMPONENT_NAME_MIN_LENGTH]

/-- Witness of the amended C7 on the text `a<b`, whose calls number `0` and `1` both return
`CONTENT`. -/
theorem content_spans_witness :
    (tokenAt 0 (setHTMLString "a<b".toList)).state = CONTENT ∧
    (tokenAt 1 (setHTMLString "a<b".toList)).state = CONTENT ∧
    ∃ c v, (tokenAt 0 (setHTMLString "a<b".toList)).value = some (c :: v) ∧ '<' ∉ v ∧
      ∃ w, (tokenAt 1 (setHTMLString "a<b".toList)).value = some ('<' :: w) :=
  have h0 : (tokenAt 0 (setHTMLString "a<b".toList)).state = CONTENT := by
    simp [tokenAt, scannerAfter, next, _next, setHTMLString, initial, content, contentLoop,
      emit, charAt, substr]
  have h1 : (tokenAt 1 (setHTMLString "a<b".toList)).state = CONTENT := by
    simp [tokenAt, scannerAfter, next, _next, setHTMLString, initial, content, contentLoop,
      emit, charAt, substr, checkIfComponent, is_cat, is_document, is_head, is_body,
      COMPONENT_NAME_MIN_LENGTH]
  match content_spans.1 "a<b".toList 0 h0 with
  | ⟨c, v, hv, hn, hw⟩ => ⟨h0, h1, c, v, hv, hn, hw h1⟩

/-- C8 (termination of a session): for a text of length `n`, one of the calls number
`0`, ..., `n` of `next` after `setHTMLString text` returns a token with state `END` or
`ILLEGAL`; and the classifier never selects `INITIAL`, so `next` re-dispatches once at most.
The scan loops and `_next` are total functions. -/
theorem session_terminates (text : List Char) :
    (∃ k, k ≤ text.length ∧
      ((tokenAt k (setHTMLString text)).state = END ∨
        (tokenAt k (setHTMLString text)).state = ILLEGAL)) ∧
    (∀ s : Scanner, (initial s)._currentState ≠ INITIAL) := by
  refine ⟨?_, fun s => ?_⟩
  · rcases session_progress text (text.length + 1) with ⟨j, hj, ht⟩ | hle
    · exact ⟨j, by omega, (isTerminal_iff _).1 ht⟩
    · obtain ⟨i1, i2⟩ := session_spec text (text.length + 1)
      have := i1.1
      rw [i2] at this
      omega
  · rcases (initial_spec s).2.2 with ⟨hc, _⟩ | ⟨hc, _⟩ | ⟨hc, _⟩ | ⟨hc, _⟩ <;> rw [hc] <;> simp

/-- C9 (component-name test): `checkIfComponent` returns true exactly when the text at the
index is `<` followed, up to case, by `cat-`, or by `document`, `head` or `body` and then a
delimiter character; a position past the end of the source is no match, so `<head` cut off
by the end of the input is not a component. -/
theorem component_name_test :
    (∀ s : Scanner,
      checkIfComponent s = true ↔ componentNameAt s._source s._currentIndex = true) ∧
    checkIfComponent { _source := "<head".toList, _currentIndex := 0, _currentState := INITIAL }
      = false ∧
    checkIfComponent { _source := "<head>".toList, _currentIndex := 0, _currentState := INITIAL }
      = true := by
  refine ⟨fun s => by rw [checkIfComponent_eq], ?_, ?_⟩ <;>
    simp [checkIfComponent, substr, is_cat, is_document, is_head, is_body, is_space_or_end,
      charAt, COMPONENT_NAME_MIN_LENGTH]

/-- C10 (content span): when the classifier selects `CONTENT` at index `c`, `next` returns
`CONTENT` with `source[c..j)`, where `j` is the smallest index after `c` that holds `<`, or the
length of the source when there is none; it leaves the index at `j`, and the state `INITIAL`
when there is such a `<` and `END` otherwise; `<bogus>text` yields `CONTENT` with the whole
text, then `END` with a null value. -/
theorem content_span :
    (∀ s : Scanner, s._currentState = INITIAL → (initial s)._currentState = CONTENT →
      ∃ j, s._currentIndex < j ∧ j ≤ s._source.length ∧
        (∀ i, s._currentIndex < i → i < j → charAt s._source i ≠ '<') ∧
        (j < s._source.length → charAt s._source j = '<') ∧
        next s = ({ state := CONTENT, value := some (slice s._source s._currentIndex j) },
          { _source := s._source, _currentIndex := j,
            _currentState := if j < s._source.length then INITIAL else END })) ∧
    tokens 2 (setHTMLString "<bogus>text".toList) =
      [{ state := CONTENT, value := some "<bogus>text".toList },
       { state := END, value := none }] := by
  refine ⟨fun s h hc => next_content_spec h hc, ?_⟩
  simp [tokens, next, _next, setHTMLString, initial, content, contentLoop,
    emit, charAt, substr, checkIfComponent, is_cat, is_document, is_head, is_body,
    COMPONENT_NAME_MIN_LENGTH]

/-- Witness of C10 on the text `a<b` at index `0`: the span is `a`, and the scan stops at the
`<` at index `1`. -/
theorem content_span_witness :
    (setHTMLString "a<b".toList)._currentState = INITIAL ∧
    (initial (setHTMLString "a<b".toList))._currentState = CONTENT ∧
    ∃ j, (setHTMLString "a<b".toList)._currentIndex < j ∧
      j ≤ (setHTMLString "a<b".toList)._source.length ∧
      (∀ i, (setHTMLString "a<b".toList)._currentIndex < i → i < j →
        charAt (setHTMLString "a<b".toList)._source i ≠ '<') ∧
      (j < (setHTMLString "a<b".toList)._source.length →
        charAt (setHTMLString "a<b".toList)._source j = '<') ∧
      next (setHTMLString "a<b".toList) =
        ({ state := CONTENT,
           value := some (slice (setHTMLString "a<b".toList)._source
             (setHTMLString "a<b".toList)._currentIndex j) },
          { _source := (setHTMLString "a<b".toList)._source, _currentIndex := j,
            _currentState :=
              if j < (setHTMLString "a<b".toList)._source.length then INITIAL else END }) :=
  have hc : (initial (setHTMLString "a<b".toList))._currentState = CONTENT := by
    simp [setHTMLString, initial, charAt]
  ⟨rfl, hc, content_span.1 (setHTMLString "a<b".toList) rfl hc⟩

/-- C11 (component span): when the classifier selects `COMPONENT` at index `c`, either the
source holds `>` at an index from `c + 5` on, and with `j` the smallest such index `next`
returns `COMPONENT` with `source[c..j+1)` and leaves the index at `j + 1` and the state
`INITIAL`; or it holds none, and `next` returns `COMPONENT` with `source[c..length)` and
leaves the index at the length and the state `ILLEGAL`.  A `>` inside a quoted attribute
value ends the span: `<head a=">">` yields `COMPONENT` with `<head a=">`. -/
theorem component_span :
    (∀ s : Scanner, s._currentState = INITIAL → (initial s)._currentState = COMPONENT →
      ((∃ j, s._currentIndex + 5 ≤ j ∧ j < s._source.length ∧ charAt s._source j = '>' ∧
          (∀ i, s._currentIndex + 5 ≤ i → i < j → charAt s._source i ≠ '>') ∧
          next s =
            ({ state := COMPONENT, value := some (slice s._source s._currentIndex (j + 1)) },
              { _source := s._source, _currentIndex := j + 1, _currentState := INITIAL })) ∨
        ((∀ i, s._currentIndex + 5 ≤ i → i < s._source.length → charAt s._source i ≠ '>') ∧
          next s =
            ({ state := COMPONENT,
               value := some (slice s._source s._currentIndex s._source.length) },
              { _source := s._source, _currentIndex := s._source.length,
                _currentState := ILLEGAL })))) ∧
    tokens 3 (setHTMLString ("<head a=".toList ++ ['"', '>', '"', '>'])) =
      [{ state := COMPONENT, value := some ("<head a=".toList ++ ['"', '>']) },
       { state := CONTENT, value := some ['"', '>'] },
       { state := END, value := none }] := by
  refine ⟨fun s h hc => (next_component_spec h hc).2, ?_⟩
  simp [tokens, next, _next, setHTMLString, initial, content, contentLoop,
    component, componentLoop, emit, charAt, substr, checkIfComponent, is_cat, is_document,
    is_head, is_body, is_space_or_end, COMPONENT_NAME_MIN_LENGTH]

/-- Witness of C11 on the text `<cat-a>b` at index `0`: the first `>` from index `5` on is
at index `6`. -/
theorem component_span_witness :
    (setHTMLString "<cat-a>b".toList)._currentState = INITIAL ∧
    (initial (setHTMLString "<cat-a>b".toList))._currentState = COMPONENT ∧
    next (setHTMLString "<cat-a>b".toList) =
      ({ state := COMPONENT, value := some "<cat-a>".toList },
        { _source := "<cat-a>b".toList, _currentIndex := 7, _currentState := INITIAL }) :=
  have hc : (initial (setHTMLString "<cat-a>b".toList))._currentState = COMPONENT := by
    simp [setHTMLString, initial, charAt, substr, checkIfComponent, is_cat,
      COMPONENT_NAME_MIN_LENGTH]
  ⟨rfl, hc, by
    rcases component_span.1 (setHTMLString "<cat-a>b".toList) rfl hc with
      ⟨j, hj1, hj2, hj3, hj4, hn⟩ | ⟨hno, _⟩
    · have hj : j = 6 := by
        simp only [setHTMLString, String.toList, List.nil_append, List.length_cons,
          List.length_nil] at hj1 hj2 hj3 hj4
        have : j < 8 := by omega
        interval_cases j
        · simp [charAt] at hj3
        · rfl
        · have := hj4 6 (by omega) (by omega)
          simp [charAt] at this
      subst hj
      rw [hn]
      simp [setHTMLString, slice]
    · have := hno 6 (by simp [setHTMLString]) (by simp [setHTMLString])
      simp [setHTMLString, charAt] at this⟩

/-- C12 (comment span): when the classifier selects `COMMENT` at index `c`, the call of `next`
leaves the state `INITIAL` exactly when a terminator `-->` stands at some index from `c + 4`
on (a terminator that overlaps the opener does not count); then, with `i` the smallest such
index, `next` returns `COMMENT` with `source[c..i+3)` and leaves the index at `i + 3`;
otherwise it leaves the state `ILLEGAL`.  The text `<!-- hi -->` yields `COMMENT` with the
whole text, then `END` with a null value; `<!-->` yields `COMMENT`, then `ILLEGAL`. -/
theorem comment_span :
    (∀ s : Scanner, s._currentState = INITIAL → (initial s)._currentState = COMMENT →
      ((next s).2._currentState = INITIAL ↔
        ∃ i, s._currentIndex + 4 ≤ i ∧ terminatorAt s._source i) ∧
      (∀ i, s._currentIndex + 4 ≤ i → terminatorAt s._source i →
        (∀ i', s._currentIndex + 4 ≤ i' → i' < i → ¬ terminatorAt s._source i') →
        next s =
          ({ state := COMMENT, value := some (slice s._source s._currentIndex (i + 3)) },
            { _source := s._source, _currentIndex := i + 3, _currentState := INITIAL })) ∧
      ((¬ ∃ i, s._currentIndex + 4 ≤ i ∧ terminatorAt s._source i) →
        (next s).2._currentState = ILLEGAL)) ∧
    tokens 2 (setHTMLString "<!-- hi -->".toList) =
      [{ state := COMMENT, value := some "<!-- hi -->".toList },
       { state := END, value := none }] ∧
    tokens 2 (setHTMLString "<!-->".toList) =
      [{ state := COMMENT, value := some "<!-->".toList },
       { state := ILLEGAL, value := none }] := by
  refine ⟨?_, ?_, ?_⟩
  · intro s h hc
    rcases (next_comment_spec h hc).2 with ⟨j, hj1, hj2, hj3, hn⟩ | ⟨hno, e, _, _, _, _, hn⟩
    · refine ⟨⟨fun _ => ⟨j, hj1, hj2⟩, fun _ => by rw [hn]⟩, ?_, fun hne => ?_⟩
      · intro i hi1 hi2 hi3
        have hij : i = j := by
          rcases Nat.lt_trichotomy i j with hlt | heq | hgt
          · exact absurd hi2 (hj3 i hi1 hlt)
          · exact heq
          · exact absurd hj2 (hi3 j hj1 hgt)
        rw [hij, hn]
      · exact absurd ⟨j, hj1, hj2⟩ hne
    · refine ⟨⟨fun hst => ?_, fun ⟨i, hi1, hi2⟩ => absurd hi2 (hno i hi1)⟩, ?_, fun _ => by rw [hn]⟩
      · rw [hn] at hst
        cases hst
      · intro i hi1 hi2 _
        exact absurd hi2 (hno i hi1)
  · simp [tokens, next, _next, setHTMLString, initial, comment, commentLoop,
      emit, charAt, substr]
  · simp [tokens, next, _next, setHTMLString, initial, comment, commentLoop,
      emit, charAt, substr]

/-- Witness of C12 on the text `<!--a-->b` at index `0`: the terminator stands at index `5`. -/
theorem comment_span_witness :
    (setHTMLString "<!--a-->b".toList)._currentState = INITIAL ∧
    (initial (setHTMLString "<!--a-->b".toList))._currentState = COMMENT ∧
    (setHTMLString "<!--a-->b".toList)._currentIndex + 4 ≤ 5 ∧
    terminatorAt (setHTMLString "<!--a-->b".toList)._source 5 ∧
    (∀ i', (setHTMLString "<!--a-->b".toList)._currentIndex + 4 ≤ i' → i' < 5 →
      ¬ terminatorAt (setHTMLString "<!--a-->b".toList)._source i') ∧
    (next (setHTMLString "<!--a-->b".toList)).2._currentState = INITIAL ∧
    next (setHTMLString "<!--a-->b".toList) =
      ({ state := COMMENT,
         value := some (slice (setHTMLString "<!--a-->b".toList)._source
           (setHTMLString "<!--a-->b".toList)._currentIndex (5 + 3)) },
        { _source := (setHTMLString "<!--a-->b".toList)._source, _currentIndex := 5 + 3,
          _currentState := INITIAL }) :=
  have hc : (initial (setHTMLString "<!--a-->b".toList))._currentState = COMMENT := by
    simp [setHTMLString, initial, charAt]
  have ht : terminatorAt (setHTMLString "<!--a-->b".toList)._source 5 := by
    simp [terminatorAt, slice, setHTMLString]
  have hmin : ∀ i', (setHTMLString "<!--a-->b".toList)._currentIndex + 4 ≤ i' → i' < 5 →
      ¬ terminatorAt (setHTMLString "<!--a-->b".toList)._source i' := by
    intro i' h1 h2 h3
    have h4 : i' = 4 := by
      simp only [setHTMLString] at h1
      omega
    subst h4
    simp [terminatorAt, slice, setHTMLString] at h3
  ⟨rfl, hc, by decide, ht, hmin,
    ((comment_span.1 (setHTMLString "<!--a-->b".toList) rfl hc).1).2 ⟨5, by decide, ht⟩,
    ((comment_span.1 (setHTMLString "<!--a-->b".toList) rfl hc).2.1) 5 (by decide) ht hmin⟩

/-- Once call number `k` has returned a terminal token, every later call returns it again. -/
theorem tokenAt_stable (s : Scanner) (k : Nat)
    (hk : (tokenAt k s).state = END ∨ (tokenAt k s).state = ILLEGAL) (j : Nat) (hkj : k ≤ j) :
    tokenAt j s = tokenAt k s := by
  rcases Nat.eq_or_lt_of_le hkj with heq | hlt
  · rw [heq]
  · obtain ⟨m, rfl⟩ : ∃ m, j = (k + 1) + m := ⟨j - (k + 1), by omega⟩
    obtain ⟨hv, hst⟩ := (next_token_cases (scannerAfter k s)).2.1 ((isTerminal_iff _).2 hk)
    have hterm : (scannerAfter (k + 1) s)._currentState = END ∨
        (scannerAfter (k + 1) s)._currentState = ILLEGAL := by
      rw [scannerAfter_succ, hst]
      exact hk
    unfold tokenAt
    rw [scannerAfter_add, scannerAfter_of_terminal hterm, next_of_terminal hterm,
      scannerAfter_succ, hst]
    cases hn : next (scannerAfter k s) with
    | mk t r =>
      rw [hn] at hv
      cases t with
      | mk st v =>
        simp only at hv
        rw [hv]

theorem charAt_mem {l : List Char} {i : Nat} (h : i < l.length) : charAt l i ∈ l := by
  rw [charAt, List.getD_eq_getElem?_getD, List.getElem?_eq_getElem h]
  exact List.getElem_mem h

theorem toLower_lt_ne : ('<' : Char).toLower = '<' := by decide

/-- At a truncated name the component-name test fails and the next character is not `!`. -/
theorem truncatedName_classify {nm : List Char}
    (hnm : nm.map Char.toLower = "document".toList ∨ nm.map Char.toLower = "head".toList ∨
      nm.map Char.toLower = "body".toList) :
    charAt ('<' :: nm) 1 ≠ '!' ∧
    (startsWithIgnoreCase "cat-".toList nm ||
      nameThenDelimiter "document".toList nm ||
      nameThenDelimiter "head".toList nm ||
      nameThenDelimiter "body".toList nm) = false ∧
    '<' ∉ nm := by
  have hmem : '<' ∉ nm := by
    intro h
    have h2 : ('<' : Char).toLower ∈ nm.map Char.toLower := List.mem_map_of_mem _ h
    rw [toLower_lt_ne] at h2
    rcases hnm with h3 | h3 | h3 <;> rw [h3] at h2 <;> revert h2 <;> decide
  refine ⟨?_, ?_, hmem⟩
  · intro h
    have h1 : ('!' : Char) ∈ nm := by
      rcases nm with _ | ⟨a, nm⟩
      · rcases hnm with h3 | h3 | h3 <;> simp at h3
      · simp [charAt] at h
        rw [h]
        exact List.mem_cons_self _ _
    have h2 : ('!' : Char).toLower ∈ nm.map Char.toLower := List.mem_map_of_mem _ h1
    have h4 : ('!' : Char).toLower = '!' := by decide
    rw [h4] at h2
    rcases hnm with h3 | h3 | h3 <;> rw [h3] at h2 <;> revert h2 <;> decide
  · rcases hnm with h3 | h3 | h3
    · rcases nm with _ | ⟨c1, _ | ⟨c2, _ | ⟨c3, _ | ⟨c4, _ | ⟨c5, _ | ⟨c6, _ | ⟨c7,
        _ | ⟨c8, _ | ⟨c9, l⟩⟩⟩⟩⟩⟩⟩⟩⟩ <;> simp at h3
      obtain ⟨h1, h2, h3, h4, h5, h6, h7, h8⟩ := h3
      simp [startsWithIgnoreCase, nameThenDelimiter, eqIgnoreCase, h1, h2, h3, h4, h5, h6, h7, h8]
    · rcases nm with _ | ⟨c1, _ | ⟨c2, _ | ⟨c3, _ | ⟨c4, _ | ⟨c5, l⟩⟩⟩⟩⟩ <;> simp at h3
      obtain ⟨h1, h2, h3, h4⟩ := h3
      simp [startsWithIgnoreCase, nameThenDelimiter, eqIgnoreCase, h1, h2, h3, h4]
    · rcases nm with _ | ⟨c1, _ | ⟨c2, _ | ⟨c3, _ | ⟨c4, _ | ⟨c5, l⟩⟩⟩⟩⟩ <;> simp at h3
      obtain ⟨h1, h2, h3, h4⟩ := h3
      simp [startsWithIgnoreCase, nameThenDelimiter, eqIgnoreCase, h1, h2, h3, h4]

/-- The call of `next` at a truncated name: `CONTENT` up to the end of the source, state `END`. -/
theorem next_truncatedName {s : Scanner} (h : s._currentState = INITIAL)
    (ht : truncatedNameAt s._source s._currentIndex = true) :
    checkIfComponent s = false ∧
    (initial s)._currentState = CONTENT ∧
    next s =
      ({ state := CONTENT, value := some (s._source.drop s._currentIndex) },
        { _source := s._source, _currentIndex := s._source.length, _currentState := END }) := by
  unfold truncatedNameAt at ht
  cases hd : s._source.drop s._currentIndex with
  | nil =>
    rw [hd] at ht
    cases ht
  | cons x nm =>
    rw [hd] at ht
    simp only [Bool.and_eq_true, beq_iff_eq, Bool.or_eq_true] at ht
    obtain ⟨hx, hnm⟩ := ht
    subst hx
    have hnm2 : nm.map Char.toLower = "document".toList ∨ nm.map Char.toLower = "head".toList ∨
        nm.map Char.toLower = "body".toList := by tauto
    obtain ⟨h1, h2, h3⟩ := truncatedName_classify hnm2
    have hlen : s._currentIndex < s._source.length := by
      by_contra hge
      rw [List.drop_eq_nil_of_le (by omega)] at hd
      cases hd
    have hc0 : charAt s._source s._currentIndex = '<' := by
      have := charAt_drop s._source s._currentIndex 0
      rw [hd] at this
      simpa [charAt] using this.symm
    have hc1 : charAt s._source (s._currentIndex + 1) ≠ '!' := by
      rw [← charAt_drop, hd]
      exact h1
    have hcomp : checkIfComponent s = false := by
      rw [checkIfComponent_eq, componentNameAt, hd]
      simp only [beq_self_eq_true, Bool.true_and]
      exact h2
    have hcl : (initial s)._currentState = CONTENT := by
      unfold initial
      rw [if_neg (by omega)]
      simp [hc0, hc1, hcomp]
    refine ⟨hcomp, hcl, ?_⟩
    obtain ⟨j, hj1, hj2, _, hj4, hn⟩ := next_content_spec h hcl
    have hj : j = s._source.length := by
      by_contra hne
      have hjlt : j < s._source.length := by omega
      have h4 := hj4 hjlt
      obtain ⟨m, rfl⟩ : ∃ m, j = s._currentIndex + (m + 1) := ⟨j - s._currentIndex - 1, by omega⟩
      rw [← charAt_drop, hd] at h4
      have hlen2 : (s._source.drop s._currentIndex).length = nm.length + 1 := by rw [hd]; rfl
      rw [List.length_drop] at hlen2
      have hm : m < nm.length := by omega
      have h5 : charAt ('<' :: nm) (m + 1) = charAt nm m := by simp [charAt]
      rw [h5] at h4
      exact h3 (h4 ▸ charAt_mem hm)
    rw [hn, hj, if_neg (lt_irrefl _)]
    simp [slice, hd]

/-- C13, the claim as stated fails: the text `<head` is a recognised name cut off by the end
of the input, its calls return `CONTENT` with `<head` and then `END`, and no call ever returns
`ILLEGAL`. -/
theorem truncated_name_counterexample :
    truncatedNameAt "<head".toList 0 = true ∧
    tokens 2 (setHTMLString "<head".toList) =
      [{ state := CONTENT, value := some "<head".toList },
       { state := END, value := none }] ∧
    ∀ k, (tokenAt k (setHTMLString "<head".toList)).state ≠ ILLEGAL := by
  have h0 : (tokenAt 0 (setHTMLString "<head".toList)).state = CONTENT := by
    simp [tokenAt, scannerAfter, next, _next, setHTMLString, initial, content, contentLoop,
      emit, charAt, substr, checkIfComponent, is_cat, is_document, is_head, is_body,
      is_space_or_end, COMPONENT_NAME_MIN_LENGTH]
  have h1 : (tokenAt 1 (setHTMLString "<head".toList)).state = END := by
    simp [tokenAt, scannerAfter, next, _next, setHTMLString, initial, content, contentLoop,
      emit, charAt, substr, checkIfComponent, is_cat, is_document, is_head, is_body,
      is_space_or_end, COMPONENT_NAME_MIN_LENGTH]
  refine ⟨by decide, ?_, ?_⟩
  · simp [tokens, next, _next, setHTMLString, initial, content, contentLoop,
      emit, charAt, substr, checkIfComponent, is_cat, is_document, is_head, is_body,
      is_space_or_end, COMPONENT_NAME_MIN_LENGTH]
  · intro k
    rcases Nat.eq_zero_or_pos k with hk | hk
    · rw [hk, h0]
      decide
    · rw [tokenAt_stable _ 1 (Or.inl h1) k hk, h1]
      decide

/-- C13, amended: where the scanner classifies at a `<` that starts a recognised name
(`document`, `head` or `body`, any case) cut off by the end of the input, the component-name
test fails, the classifier selects `CONTENT`, `next` returns `CONTENT` with the text up to the
end of the source and leaves the state `END`, and every later call returns `END` with a null
value; `<head` yields `CONTENT` with `<head`, then `END`. -/
theorem truncated_name :
    (∀ s : Scanner, s._currentState = INITIAL →
      truncatedNameAt s._source s._currentIndex = true →
      checkIfComponent s = false ∧
      (initial s)._currentState = CONTENT ∧
      next s =
        ({ state := CONTENT, value := some (s._source.drop s._currentIndex) },
          { _source := s._source, _currentIndex := s._source.length, _currentState := END }) ∧
      ∀ j, tokenAt (j + 1) s = { state := END, value := none }) ∧
    tokens 2 (setHTMLString "<head".toList) =
      [{ state := CONTENT, value := some "<head".toList },
       { state := END, value := none }] := by
  refine ⟨?_, ?_⟩
  · intro s h ht
    obtain ⟨hcomp, hcl, hn⟩ := next_truncatedName h ht
    refine ⟨hcomp, hcl, hn, ?_⟩
    · intro j
      have hterm : (next s).2._currentState = END ∨ (next s).2._currentState = ILLEGAL := by
        rw [hn]
        exact Or.inl rfl
      show (next (scannerAfter j (next s).2)).1 = _
      rw [scannerAfter_of_terminal hterm, next_of_terminal hterm, hn]
  · simp [tokens, next, _next, setHTMLString, initial, content, contentLoop,
      emit, charAt, substr, checkIfComponent, is_cat, is_document, is_head, is_body,
      is_space_or_end, COMPONENT_NAME_MIN_LENGTH]

/-- Witness of the amended C13 on the text `x<BODY`, after the first call, at index `1`. -/
theorem truncated_name_witness :
    ({ _source := "x<BODY".toList, _currentIndex := 1, _currentState := INITIAL }
      : Scanner)._currentState = INITIAL ∧
    truncatedNameAt "x<BODY".toList 1 = true ∧
    next { _source := "x<BODY".toList, _currentIndex := 1, _currentState := INITIAL } =
      ({ state := CONTENT, value := some "<BODY".toList },
        { _source := "x<BODY".toList, _currentIndex := 6, _currentState := END }) :=
  ⟨rfl, by decide,
    (truncated_name.1 { _source := "x<BODY".toList, _currentIndex := 1, _currentState := INITIAL }
      rfl (by decide)).2.2.1⟩

theorem charAt_eq_iff (l : List Char) (i : Nat) {x : Char} (hx : x ≠ Char.ofNat 0) :
    charAt l i = x ↔ l[i]? = some x := by
  rw [charAt, List.getD_eq_getElem?_getD]
  cases h : l[i]? with
  | none =>
    simp only [Option.getD_none]
    constructor
    · intro h2
      exact absurd h2.symm hx
    · intro h2
      cases h2
  | some y => simp

theorem openerAt_iff (source : List Char) (i : Nat) :
    slice source i (i + 4) = "<!--".toList ↔
      charAt source i = '<' ∧ charAt source (i + 1) = '!' ∧ charAt source (i + 2) = '-' ∧
        charAt source (i + 3) = '-' := by
  rw [slice_eq_substr, ← charAt_drop source i 1, ← charAt_drop source i 2,
    ← charAt_drop source i 3]
  have h0 : charAt source i = charAt (source.drop i) 0 := by rw [charAt_drop]; rfl
  rw [h0]
  unfold substr
  generalize source.drop i = l
  have h3 : i + 4 - i = 4 := by omega
  rw [h3]
  rcases l with _ | ⟨a, _ | ⟨b, _ | ⟨c, _ | ⟨d, l⟩⟩⟩⟩ <;> simp [charAt]

theorem initial_eq_classify (s : Scanner) :
    (initial s)._currentState = classify s._source s._currentIndex := by
  have hlt : ∀ (l : List Char) (i : Nat), l[i]? = some '<' ↔ charAt l i = '<' :=
    fun l i => (charAt_eq_iff l i (by decide)).symm
  have hbang : ∀ (l : List Char) (i : Nat), l[i]? = some '!' ↔ charAt l i = '!' :=
    fun l i => (charAt_eq_iff l i (by decide)).symm
  unfold initial classify
  simp only [openerAt_iff, hlt, hbang, ← checkIfComponent_eq]
  split_ifs <;> simp_all

/-- C14 (empty input): after `setHTMLString text` the first call of `next` returns `END` with
a null value exactly when `text` is empty; on the empty text it does so and leaves the index
at `0`. -/
theorem empty_input (text : List Char) :
    (tokenAt 0 (setHTMLString text) = { state := END, value := none } ↔ text = []) ∧
    next (setHTMLString []) =
      ({ state := END, value := none },
        { _source := [], _currentIndex := 0, _currentState := END }) := by
  have hempty : next (setHTMLString []) =
      ({ state := END, value := none },
        { _source := [], _currentIndex := 0, _currentState := END }) := by
    simp [next, _next, setHTMLString, initial]
  refine ⟨⟨fun h => ?_, fun h => ?_⟩, hempty⟩
  · have h1 : (next (setHTMLString text)).1.state = END := by
      have := congrArg Token.state h
      exact this
    rw [token_state_eq_initial rfl] at h1
    rcases (initial_spec (setHTMLString text)).2.2 with ⟨_, hb⟩ | ⟨hc, _⟩ | ⟨hc, _⟩ | ⟨hc, _⟩
    · have hb2 : text.length ≤ 0 := hb
      exact List.length_eq_zero.1 (by omega)
    · rw [hc] at h1; cases h1
    · rw [hc] at h1; cases h1
    · rw [hc] at h1; cases h1
  · rw [h]
    show (next (setHTMLString [])).1 = _
    rw [hempty]

/-- C15 (state encoding): the integer of a state is `-1` for `ILLEGAL`, `0` for `INITIAL`, `1`
for `CONTENT`, `2` for `COMPONENT`, `3` for `COMMENT` and `4` for `END`, and no two states
share an integer. -/
theorem state_encoding :
    STATES.toInt ILLEGAL = -1 ∧ STATES.toInt INITIAL = 0 ∧ STATES.toInt CONTENT = 1 ∧
    STATES.toInt COMPONENT = 2 ∧ STATES.toInt COMMENT = 3 ∧ STATES.toInt END = 4 ∧
    Function.Injective STATES.toInt := by
  refine ⟨rfl, rfl, rfl, rfl, rfl, rfl, ?_⟩
  intro a b h
  cases a <;> cases b <;> first | rfl | (simp [STATES.toInt] at h)

/-- C16 (lookahead classifier): `initial` leaves the source and the index as they are and sets
the state to `END` at or past the end of the source, otherwise to `COMMENT` at `<!--`,
otherwise to `CONTENT` at `<!`, otherwise to `COMPONENT` at a `<` where the component-name test
matches, otherwise to `CONTENT`; it never sets `INITIAL` or `ILLEGAL`, so the call of `_next`
that `_next` makes after it emits a token. -/
theorem lookahead_classifier (s : Scanner) :
    initial s = { _source := s._source, _currentIndex := s._currentIndex,
                  _currentState := classify s._source s._currentIndex } ∧
    classify s._source s._currentIndex ≠ INITIAL ∧
    classify s._source s._currentIndex ≠ ILLEGAL ∧
    (_next (initial s)).1.state = classify s._source s._currentIndex := by
  have h := initial_eq_classify s
  have hne : (initial s)._currentState ≠ INITIAL ∧ (initial s)._currentState ≠ ILLEGAL := by
    rcases (initial_spec s).2.2 with ⟨hc, _⟩ | ⟨hc, _⟩ | ⟨hc, _⟩ | ⟨hc, _⟩ <;> rw [hc] <;> simp
  refine ⟨?_, h ▸ hne.1, h ▸ hne.2, ?_⟩
  · rw [← h]
    exact initial_eq s
  · rw [← h]
    cases hs : (initial s)._currentState with
    | ILLEGAL => exact absurd hs hne.2
    | INITIAL => exact absurd hs hne.1
    | CONTENT => rw [_next_CONTENT hs]; rfl
    | COMPONENT => rw [_next_COMPONENT hs]; rfl
    | COMMENT => rw [_next_COMMENT hs]; rfl
    | END => rw [_next_END hs]

/-- C17 (strict early exit of the comment scan): when the classifier selects `COMMENT` at
index `c` and no terminator `-->` stands at an index from `c + 4` on, `next` leaves the state
`ILLEGAL` and the index at the first `e` from `c + 4` on that holds `-` with `e + 2` at or
past the length of the source, that `-` not consumed, or at the length when there is no such
index; the token is `COMMENT` with `source[c..e)`.  The text `<!--a-b` leaves the index `5`,
and so does `<!--a-` with its lone trailing `-`. -/
theorem strict_early_exit :
    (∀ s : Scanner, s._currentState = INITIAL → (initial s)._currentState = COMMENT →
      (∀ i, s._currentIndex + 4 ≤ i → ¬ terminatorAt s._source i) →
      ∃ e, s._currentIndex + 4 ≤ e ∧ e ≤ s._source.length ∧
        (e < s._source.length → charAt s._source e = '-' ∧ s._source.length ≤ e + 2) ∧
        (∀ i, s._currentIndex + 4 ≤ i → i < e →
          ¬ (charAt s._source i = '-' ∧ s._source.length ≤ i + 2)) ∧
        next s = ({ state := COMMENT, value := some (slice s._source s._currentIndex e) },
          { _source := s._source, _currentIndex := e, _currentState := ILLEGAL })) ∧
    next (setHTMLString "<!--a-b".toList) =
      ({ state := COMMENT, value := some "<!--a".toList },
        { _source := "<!--a-b".toList, _currentIndex := 5, _currentState := ILLEGAL }) ∧
    next (setHTMLString "<!--a-".toList) =
      ({ state := COMMENT, value := some "<!--a".toList },
        { _source := "<!--a-".toList, _currentIndex := 5, _currentState := ILLEGAL }) := by
  refine ⟨?_, ?_, ?_⟩
  · intro s h hc hno
    rcases (next_comment_spec h hc).2 with ⟨j, hj1, hj2, _⟩ | ⟨_, e, he1, he2, he3, he4, hn⟩
    · exact absurd hj2 (hno j hj1)
    · exact ⟨e, he1, he2, he3, he4, hn⟩
  · simp [next, _next, setHTMLString, initial, comment, commentLoop, emit, charAt, substr]
  · simp [next, _next, setHTMLString, initial, comment, commentLoop, emit, charAt, substr]

/-- Witness of C17 on the text `<!--ab`, which holds no `-` after the opener: the scan runs to
the end of the source. -/
theorem strict_early_exit_witness :
    (setHTMLString "<!--ab".toList)._currentState = INITIAL ∧
    (initial (setHTMLString "<!--ab".toList))._currentState = COMMENT ∧
    (∀ i, (setHTMLString "<!--ab".toList)._currentIndex + 4 ≤ i →
      ¬ terminatorAt (setHTMLString "<!--ab".toList)._source i) ∧
    ∃ e, (setHTMLString "<!--ab".toList)._currentIndex + 4 ≤ e ∧
      e ≤ (setHTMLString "<!--ab".toList)._source.length ∧
      (e < (setHTMLString "<!--ab".toList)._source.length →
        charAt (setHTMLString "<!--ab".toList)._source e = '-' ∧
          (setHTMLString "<!--ab".toList)._source.length ≤ e + 2) ∧
      (∀ i, (setHTMLString "<!--ab".toList)._currentIndex + 4 ≤ i → i < e →
        ¬ (charAt (setHTMLString "<!--ab".toList)._source i = '-' ∧
          (setHTMLString "<!--ab".toList)._source.length ≤ i + 2)) ∧
      next (setHTMLString "<!--ab".toList) =
        ({ state := COMMENT,
           value := some (slice (setHTMLString "<!--ab".toList)._source
             (setHTMLString "<!--ab".toList)._currentIndex e) },
          { _source := (setHTMLString "<!--ab".toList)._source, _currentIndex := e,
            _currentState := ILLEGAL }) :=
  have hc : (initial (setHTMLString "<!--ab".toList))._currentState = COMMENT := by
    simp [setHTMLString, initial, charAt]
  have hno : ∀ i, (setHTMLString "<!--ab".toList)._currentIndex + 4 ≤ i →
      ¬ terminatorAt (setHTMLString "<!--ab".toList)._source i := by
    intro i hi ht
    have hlt := terminatorAt_lt ht
    simp only [setHTMLString, String.toList, List.nil_append, List.length_cons,
      List.length_nil] at hlt hi
    omega
  ⟨rfl, hc, hno, strict_early_exit.1 (setHTMLString "<!--ab".toList) rfl hc hno⟩

/-- C18 (prefix invariant): after `k` calls of `next` following `setHTMLString text`, the
non-null values returned so far, joined in call order, are `text[0..index)`, a prefix of the
text; so a session that ends in `ILLEGAL` has emitted a prefix of the text. -/
theorem prefix_invariant (text : List Char) (k : Nat) :
    concatValues (tokens k (setHTMLString text)) =
      slice text 0 (scannerAfter k (setHTMLString text))._currentIndex ∧
    concatValues (tokens k (setHTMLString text)) =
      text.take (scannerAfter k (setHTMLString text))._currentIndex ∧
    concatValues (tokens k (setHTMLString text)) <+: text := by
  have h := concatValues_tokens k (Inv_setHTMLString text)
  have h2 : slice text 0 (scannerAfter k (setHTMLString text))._currentIndex =
      text.take (scannerAfter k (setHTMLString text))._currentIndex := by
    simp [slice]
  refine ⟨h, h.trans h2, ?_⟩
  rw [h.trans h2]
  exact List.take_prefix _ _

/-- A scanner whose state is not `ILLEGAL` does not return an `ILLEGAL` token. -/
theorem token_ne_ILLEGAL {s : Scanner} (h : s._currentState ≠ ILLEGAL) :
    (next s).1.state ≠ ILLEGAL := by
  cases hs : s._currentState with
  | ILLEGAL => exact absurd hs h
  | END => rw [next_of_terminal (Or.inl hs), hs]; simp
  | CONTENT => rw [next, _next_CONTENT hs]; simp [emit]
  | COMPONENT => rw [next, _next_COMPONENT hs]; simp [emit]
  | COMMENT => rw [next, _next_COMMENT hs]; simp [emit]
  | INITIAL =>
    rw [token_state_eq_initial hs]
    rcases (initial_spec s).2.2 with ⟨hc, _⟩ | ⟨hc, _⟩ | ⟨hc, _⟩ | ⟨hc, _⟩ <;> rw [hc] <;> simp

/-- A call that leaves the state `ILLEGAL` without returning an `ILLEGAL` token scanned an
unterminated component or comment. -/
theorem unterminated_of_ILLEGAL {s : Scanner} (hI : Inv s)
    (hk : (next s).1.state ≠ ILLEGAL) (hk1 : (next s).2._currentState = ILLEGAL) :
    (((next s).1.state = COMPONENT ∧
        ∀ i, s._currentIndex + 5 ≤ i → i < s._source.length → charAt s._source i ≠ '>') ∨
      ((next s).1.state = COMMENT ∧
        ∀ i, s._currentIndex + 4 ≤ i → ¬ terminatorAt s._source i)) ∧
    (next s).1.value = some (slice s._source s._currentIndex (next s).2._currentIndex) ∧
    s._currentIndex < (next s).2._currentIndex := by
  rcases hI.2 with h | h | ⟨h, _⟩
  · rcases (initial_spec s).2.2 with ⟨hc, _⟩ | ⟨hc, _⟩ | ⟨hc, _⟩ | ⟨hc, _⟩
    · rw [next_of_end h hc] at hk1
      cases hk1
    · obtain ⟨j, _, _, _, _, hn⟩ := next_content_spec h hc
      rw [hn] at hk1
      simp only at hk1
      split_ifs at hk1
    · rcases (next_component_spec h hc) with ⟨hb, ⟨j, _, _, _, _, hn⟩ | ⟨hno, hn⟩⟩
      · rw [hn] at hk1
        cases hk1
      · rw [hn]
        exact ⟨Or.inl ⟨rfl, hno⟩, rfl, by simp only; omega⟩
    · rcases (next_comment_spec h hc) with ⟨hb, ⟨j, _, _, _, hn⟩ | ⟨hno, e, he1, _, _, _, hn⟩⟩
      · rw [hn] at hk1
        cases hk1
      · rw [hn]
        exact ⟨Or.inr ⟨rfl, hno⟩, rfl, by simp only; omega⟩
  · rw [next_of_terminal (Or.inr h), h] at hk
    exact absurd rfl hk
  · rw [next_of_terminal (Or.inl h), h] at hk1
    cases hk1

/-- C19 (`ILLEGAL` is reported one call late): the first call of `next` after `setHTMLString`
never returns `ILLEGAL`; and when call number `k + 1` returns `ILLEGAL` while call number `k`
did not, call number `k` returned `COMPONENT` or `COMMENT` with a non-null, non-empty value,
the text it consumed, which holds no `>` from index `c + 5` on for a component and no
terminator from index `c + 4` on for a comment. -/
theorem illegal_one_call_late (text : List Char) :
    (tokenAt 0 (setHTMLString text)).state ≠ ILLEGAL ∧
    (∀ k, (tokenAt (k + 1) (setHTMLString text)).state = ILLEGAL →
      (tokenAt k (setHTMLString text)).state ≠ ILLEGAL →
      (((tokenAt k (setHTMLString text)).state = COMPONENT ∧
          ∀ i, (scannerAfter k (setHTMLString text))._currentIndex + 5 ≤ i → i < text.length →
            charAt text i ≠ '>') ∨
        ((tokenAt k (setHTMLString text)).state = COMMENT ∧
          ∀ i, (scannerAfter k (setHTMLString text))._currentIndex + 4 ≤ i →
            ¬ terminatorAt text i)) ∧
      (tokenAt k (setHTMLString text)).value =
        some (slice text (scannerAfter k (setHTMLString text))._currentIndex
          (scannerAfter (k + 1) (setHTMLString text))._currentIndex) ∧
      (scannerAfter k (setHTMLString text))._currentIndex <
        (scannerAfter (k + 1) (setHTMLString text))._currentIndex) := by
  have h0 : (next (setHTMLString text)).1.state ≠ ILLEGAL :=
    token_ne_ILLEGAL (s := setHTMLString text) (fun h => by cases h)
  refine ⟨h0, ?_⟩
  intro k hk1 hk
  obtain ⟨i1, i2⟩ := session_spec text k
  have hst : (next (scannerAfter k (setHTMLString text))).2._currentState = ILLEGAL := by
    by_contra hne
    rw [← scannerAfter_succ] at hne
    exact token_ne_ILLEGAL hne hk1
  have h := unterminated_of_ILLEGAL i1 hk hst
  rw [i2, ← scannerAfter_succ] at h
  exact h

/-- Witness of C19 on the text `<cat-`: call number `0` returns `COMPONENT`, call number `1`
returns `ILLEGAL`. -/
theorem illegal_one_call_late_witness :
    (tokenAt 1 (setHTMLString "<cat-".toList)).state = ILLEGAL ∧
    (tokenAt 0 (setHTMLString "<cat-".toList)).state ≠ ILLEGAL ∧
    tokens 2 (setHTMLString "<cat-".toList) =
      [{ state := COMPONENT, value := some "<cat-".toList },
       { state := ILLEGAL, value := none }] ∧
    (tokenAt 0 (setHTMLString "<cat-".toList)).value =
      some (slice "<cat-".toList (scannerAfter 0 (setHTMLString "<cat-".toList))._currentIndex
        (scannerAfter (0 + 1) (setHTMLString "<cat-".toList))._currentIndex) :=
  have h1 : (tokenAt 1 (setHTMLString "<cat-".toList)).state = ILLEGAL := by
    simp [tokenAt, scannerAfter, next, _next, setHTMLString, initial, component, componentLoop,
      emit, charAt, substr, checkIfComponent, is_cat, COMPONENT_NAME_MIN_LENGTH]
  have h0 : (tokenAt 0 (setHTMLString "<cat-".toList)).state ≠ ILLEGAL := by
    simp [tokenAt, scannerAfter, next, _next, setHTMLString, initial, component, componentLoop,
      emit, charAt, substr, checkIfComponent, is_cat, COMPONENT_NAME_MIN_LENGTH]
  ⟨h1, h0, by
    simp [tokens, next, _next, setHTMLString, initial, component, componentLoop,
      emit, charAt, substr, checkIfComponent, is_cat, COMPONENT_NAME_MIN_LENGTH],
    ((illegal_one_call_late "<cat-".toList).2 0 h1 h0).2.1⟩

/-- C20 (fixed skips stay in range): where the classifier selects `CONTENT` the index is below
the length of the source, where it selects `COMPONENT` the index plus `5` is at most the
length, and where it selects `COMMENT` the index plus `4` is at most the length; so a call of
`next` that scans a span leaves the index at or after where it was and within the source, and
the value it takes is `source[c0..c1)` with `c0 ≤ c1 ≤ length`. -/
theorem fixed_skips_in_range (s : Scanner) :
    ((initial s)._currentState = CONTENT → s._currentIndex + 1 ≤ s._source.length) ∧
    ((initial s)._currentState = COMPONENT → s._currentIndex + 5 ≤ s._source.length) ∧
    ((initial s)._currentState = COMMENT → s._currentIndex + 4 ≤ s._source.length) ∧
    (s._currentState = INITIAL → (initial s)._currentState ≠ END →
      s._currentIndex < (next s).2._currentIndex ∧
      (next s).2._currentIndex ≤ s._source.length ∧
      (next s).2._source = s._source ∧
      (next s).1.value = some (slice s._source s._currentIndex (next s).2._currentIndex)) := by
  have hsp := (initial_spec s).2.2
  refine ⟨fun hc => ?_, fun hc => ?_, fun hc => ?_, fun h hne => ?_⟩
  · rcases hsp with ⟨h', _⟩ | ⟨_, hb⟩ | ⟨h', _⟩ | ⟨h', _⟩
    · rw [hc] at h'; cases h'
    · exact hb
    · rw [hc] at h'; cases h'
    · rw [hc] at h'; cases h'
  · rcases hsp with ⟨h', _⟩ | ⟨h', _⟩ | ⟨_, hb⟩ | ⟨h', _⟩
    · rw [hc] at h'; cases h'
    · rw [hc] at h'; cases h'
    · exact hb
    · rw [hc] at h'; cases h'
  · rcases hsp with ⟨h', _⟩ | ⟨h', _⟩ | ⟨h', _⟩ | ⟨_, hb⟩
    · rw [hc] at h'; cases h'
    · rw [hc] at h'; cases h'
    · rw [hc] at h'; cases h'
    · exact hb
  · rcases hsp with ⟨hc, _⟩ | ⟨hc, _⟩ | ⟨hc, _⟩ | ⟨hc, _⟩
    · exact absurd hc hne
    · obtain ⟨j, hj1, hj2, _, _, hn⟩ := next_content_spec h hc
      rw [hn]
      exact ⟨hj1, hj2, rfl, rfl⟩
    · rcases next_component_spec h hc with ⟨hb, ⟨j, hj1, hj2, _, _, hn⟩ | ⟨_, hn⟩⟩
      · rw [hn]
        exact ⟨by simp only; omega, by simp only; omega, rfl, rfl⟩
      · rw [hn]
        exact ⟨by simp only; omega, le_refl _, rfl, rfl⟩
    · rcases next_comment_spec h hc with ⟨hb, ⟨j, hj1, hj2, _, hn⟩ | ⟨_, e, he1, he2, _, _, hn⟩⟩
      · have := terminatorAt_lt hj2
        rw [hn]
        exact ⟨by simp only; omega, by simp only; omega, rfl, rfl⟩
      · rw [hn]
        exact ⟨by simp only; omega, he2, rfl, rfl⟩

/-- Witness of C20 on the texts `a`, `<cat-` and `<!--`, where the classifier selects
`CONTENT`, `COMPONENT` and `COMMENT` at index `0` and the fixed skip ends exactly at the end of
the source. -/
theorem fixed_skips_in_range_witness :
    ((initial (setHTMLString "a".toList))._currentState = CONTENT ∧
      (setHTMLString "a".toList)._currentIndex + 1 ≤ (setHTMLString "a".toList)._source.length) ∧
    ((initial (setHTMLString "<!--".toList))._currentState = COMMENT ∧
      (setHTMLString "<!--".toList)._currentIndex + 4 ≤
        (setHTMLString "<!--".toList)._source.length) ∧
    (initial (setHTMLString "<cat-".toList))._currentState = COMPONENT ∧
    (setHTMLString "<cat-".toList)._currentIndex + 5 ≤
      (setHTMLString "<cat-".toList)._source.length ∧
    (setHTMLString "<cat-".toList)._currentState = INITIAL ∧
    (initial (setHTMLString "<cat-".toList))._currentState ≠ END ∧
    (next (setHTMLString "<cat-".toList)).2._currentIndex ≤
      (setHTMLString "<cat-".toList)._source.length :=
  have ha : (initial (setHTMLString "a".toList))._currentState = CONTENT := by
    simp [setHTMLString, initial, charAt]
  have hm : (initial (setHTMLString "<!--".toList))._currentState = COMMENT := by
    simp [setHTMLString, initial, charAt]
  have hc : (initial (setHTMLString "<cat-".toList))._currentState = COMPONENT := by
    simp [setHTMLString, initial, charAt, substr, checkIfComponent, is_cat,
      COMPONENT_NAME_MIN_LENGTH]
  have hne : (initial (setHTMLString "<cat-".toList))._currentState ≠ END := by
    rw [hc]
    decide
  ⟨⟨ha, (fixed_skips_in_range (setHTMLString "a".toList)).1 ha⟩,
    ⟨hm, (fixed_skips_in_range (setHTMLString "<!--".toList)).2.2.1 hm⟩,
    hc, (fixed_skips_in_range (setHTMLString "<cat-".toList)).2.1 hc, rfl, hne,
    ((fixed_skips_in_range (setHTMLString "<cat-".toList)).2.2.2 rfl hne).2.1⟩

end HTMLTokenizer
